import Mathlib

/-
Shallow embedding of the Kropki Sudoku solver (solver.py) and verification of
its specification claims.

Modelling conventions:
- A cell (`Variable` in the source) stores its assigned value as a `Nat`
  (`0` = unassigned, matching the source's string `'0'`), its domain as a
  `List Nat` of 0/1 flags (index `k` corresponds to digit `k+1`), and the four
  dot-constraint fields `up / down / left / right` as `Nat`
  (`0` = none, `1` = white dot, `2` = black dot).
- The mutable 9x9 board is embedded as a function `Fin 9 → Fin 9 → Variable`;
  in-place mutation becomes explicit state passing (`updCell`).
- Python negative indexing (`board[i-1]` at `i = 0` wraps to row 8) is mirrored
  by `Fin 9` subtraction, which wraps the same way.
- The recursive `backtrack` closure is embedded with an explicit fuel argument
  (81 cells plus one extra level is always enough, `backtracking_search` passes
  82); running out of fuel yields a failure result, which never affects the
  soundness statements proved below.
- `backtrack`'s Python return value (a board on success, `False` on failure) is
  embedded as `BtResult`, whose `failed` constructor carries the final state of
  the threaded board so that restoration-on-failure is a provable statement.
-/

namespace Kropki

abbrev Idx := Fin 9

/-- One grid cell: assignment, candidate domain, and the four dot-edge fields. -/
@[ext]
structure Variable where
  value : Nat
  domain : List Nat
  up : Nat
  down : Nat
  left : Nat
  right : Nat
deriving DecidableEq

/-- Source `Variable.assigned`: a cell is assigned when its value is not `'0'`. -/
def Variable.assigned (v : Variable) : Bool := v.value != 0

/-- Source `Variable.remaining_value_count`: sum of the 0/1 domain flags. -/
def Variable.remaining_value_count (v : Variable) : Nat := v.domain.sum

abbrev Board := Idx → Idx → Variable

abbrev Pos := Idx × Idx

abbrev Record := List (Pos × List Nat)

/-- Pointwise update of one board cell (in-place mutation made explicit). -/
def updCell (b : Board) (i j : Idx) (f : Variable → Variable) : Board :=
  fun r c => if r = i ∧ c = j then f (b r c) else b r c

/-- Cast a natural number to a board index (used to build box coordinates). -/
def f9 (n : Nat) : Idx := ⟨n % 9, Nat.mod_lt n (by decide)⟩

/-- Source `box_indexes`: the nine coordinates of the 3x3 box containing (i, j). -/
def box_indexes (i j : Idx) : List Pos :=
  [(f9 (i.val / 3 * 3), f9 (j.val / 3 * 3)),
   (f9 (i.val / 3 * 3), f9 (j.val / 3 * 3 + 1)),
   (f9 (i.val / 3 * 3), f9 (j.val / 3 * 3 + 2)),
   (f9 (i.val / 3 * 3 + 1), f9 (j.val / 3 * 3)),
   (f9 (i.val / 3 * 3 + 1), f9 (j.val / 3 * 3 + 1)),
   (f9 (i.val / 3 * 3 + 1), f9 (j.val / 3 * 3 + 2)),
   (f9 (i.val / 3 * 3 + 2), f9 (j.val / 3 * 3)),
   (f9 (i.val / 3 * 3 + 2), f9 (j.val / 3 * 3 + 1)),
   (f9 (i.val / 3 * 3 + 2), f9 (j.val / 3 * 3 + 2))]

/-- The row sweep `for k in range(9): if k == jvar: continue` of the source loops. -/
def rowPositions (i j : Idx) : List Pos :=
  (List.finRange 9).filterMap (fun k => if k = j then none else some (i, k))

/-- The column sweep `for k in range(9): if k == ivar: continue` of the source loops. -/
def colPositions (i j : Idx) : List Pos :=
  (List.finRange 9).filterMap (fun k => if k = i then none else some (k, j))

/-- The box sweep with the source's `if k == ivar or l == jvar: continue` skip. -/
def boxPositions (i j : Idx) : List Pos :=
  (box_indexes i j).filter (fun p => p.1 != i && p.2 != j)

/-- Row, then column, then box positions: the order every source function uses. -/
def posNeighbors (i j : Idx) : List Pos :=
  rowPositions i j ++ colPositions i j ++ boxPositions i j

/-- Source `dot_remains`: candidate values for a cell given its dot neighbor's value. -/
def dot_remains (dot_type valint : Nat) : List Nat :=
  if dot_type = 1 then
    if valint = 1 then [valint + 1]
    else if valint = 9 then [valint - 1]
    else [valint - 1, valint + 1]
  else if dot_type = 2 then
    if valint % 2 = 0 ∧ valint ≤ 4 then [valint / 2, valint * 2]
    else if valint % 2 = 0 ∧ 4 < valint then [valint / 2]
    else if valint % 2 = 1 ∧ valint ≤ 3 then [valint * 2]
    else []
  else []

/-- The source loop `for k in range(len(dom)): if k+1 not in remain: dom[k] = 0`,
with `k` starting at the given index. -/
def pruneToRemain (remain : List Nat) : Nat → List Nat → List Nat
  | _, [] => []
  | k, x :: rest => (if k + 1 ∈ remain then x else 0) :: pruneToRemain remain (k + 1) rest

/-- Clear domain flag `v` of cell `p` (the statement `board[i][k].domain[v-1] = 0`). -/
def pruneValue (b : Board) (p : Pos) (v : Nat) : Board :=
  updCell b p.1 p.2 (fun c => { c with domain := c.domain.set (v - 1) 0 })

/-- One dot-pruning step of `update_neighbors` (no consistency check). -/
def dotPruneNoCheck (b : Board) (p : Pos) (dt v : Nat) : Board :=
  if dt ≠ 0 ∧ (b p.1 p.2).assigned = false then
    updCell b p.1 p.2 (fun c => { c with domain := pruneToRemain (dot_remains dt v) 0 c.domain })
  else b

/-- Source `update_neighbors`: prune all row/column/box and dot neighbors of the
assigned cell (i, j), with no bookkeeping and no consistency checks. -/
def update_neighbors (b : Board) (i j : Idx) : Board :=
  let v := (b i j).value
  let b1 := (posNeighbors i j).foldl
    (fun acc p => if (acc p.1 p.2).assigned then acc else pruneValue acc p v) b
  let b2 := dotPruneNoCheck b1 (i - 1, j) (b1 i j).up v
  let b3 := dotPruneNoCheck b2 (i + 1, j) (b2 i j).down v
  let b4 := dotPruneNoCheck b3 (i, j - 1) (b3 i j).left v
  dotPruneNoCheck b4 (i, j + 1) (b4 i j).right v

/-- The initial sweep of `parse_file` (lines 91-95): run `update_neighbors` on
every assigned cell, in row-major order. -/
def initial_sweep (b : Board) : Board :=
  ((List.finRange 9).flatMap (fun i => (List.finRange 9).map (fun j => ((i, j) : Pos)))).foldl
    (fun acc p => if (acc p.1 p.2).assigned then update_neighbors acc p.1 p.2 else acc) b

/-- All 81 board positions in row-major scan order. -/
def allPositions : List Pos :=
  (List.finRange 9).flatMap (fun i => (List.finRange 9).map (fun j => (i, j)))

/-- The snapshot phase of `forward_check` (lines 173-192): record the position
and current domain of every unassigned row/column/box neighbor. -/
def collectOriginal (b : Board) (i j : Idx) : Record :=
  ((posNeighbors i j).filter (fun p => !(b p.1 p.2).assigned)).map
    (fun p => (p, (b p.1 p.2).domain))

/-- The positional pruning phase of `forward_check`: clear flag `v` of each
unassigned neighbor in turn, short-circuiting when a domain empties. -/
def fcPrunePos (b : Board) (v : Nat) : List Pos → Bool × Board
  | [] => (true, b)
  | p :: rest =>
    if (b p.1 p.2).assigned then fcPrunePos b v rest
    else
      let b1 := pruneValue b p v
      if (b1 p.1 p.2).remaining_value_count = 0 then (false, b1)
      else fcPrunePos b1 v rest

/-- One dot-pruning step of `forward_check`, with the empty-domain check. -/
def fcDot (b : Board) (p : Pos) (dt v : Nat) : Bool × Board :=
  if dt ≠ 0 ∧ (b p.1 p.2).assigned = false then
    let b1 := updCell b p.1 p.2 (fun c => { c with domain := pruneToRemain (dot_remains dt v) 0 c.domain })
    if (b1 p.1 p.2).remaining_value_count = 0 then (false, b1) else (true, b1)
  else (true, b)

/-- Source `forward_check`: snapshot the unassigned row/column/box neighbors,
then prune positional and dot neighbors of the just-assigned cell (i, j),
returning the consistency flag, the change record, and the updated board. -/
def forward_check (b : Board) (i j : Idx) : Bool × Record × Board :=
  let original := collectOriginal b i j
  let v := (b i j).value
  match fcPrunePos b v (posNeighbors i j) with
  | (false, b1) => (false, original, b1)
  | (true, b1) =>
    match fcDot b1 (i - 1, j) (b1 i j).up v with
    | (false, b2) => (false, original, b2)
    | (true, b2) =>
      match fcDot b2 (i + 1, j) (b2 i j).down v with
      | (false, b3) => (false, original, b3)
      | (true, b3) =>
        match fcDot b3 (i, j - 1) (b3 i j).left v with
        | (false, b4) => (false, original, b4)
        | (true, b4) =>
          match fcDot b4 (i, j + 1) (b4 i j).right v with
          | (false, b5) => (false, original, b5)
          | (true, b5) => (true, original, b5)

/-- Source `remove_inferences`: write each recorded domain snapshot back. -/
def remove_inferences (b : Board) (original : Record) : Board :=
  original.foldl (fun acc pr => updCell acc pr.1.1 pr.1.2 (fun c => { c with domain := pr.2 })) b

/-- Source `assignment_complete`: every cell is assigned. -/
def assignment_complete (b : Board) : Bool :=
  allPositions.all (fun p => (b p.1 p.2).assigned)

/-- Source `unassigned_neighbors_count`: the degree heuristic's count of
unassigned row/column/box neighbors. -/
def unassigned_neighbors_count (b : Board) (i j : Idx) : Nat :=
  ((posNeighbors i j).filter (fun p => !(b p.1 p.2).assigned)).length

/-- One step of the MRV scan of `select_variable` (state: current minimum,
`none` standing for `math.inf`, and the tied candidate list). -/
def mrvStep (b : Board) (s : Option Nat × List Pos) (p : Pos) : Option Nat × List Pos :=
  if (b p.1 p.2).assigned then s
  else
    let r := (b p.1 p.2).remaining_value_count
    match s.1 with
    | none => (some r, [p])
    | some m =>
      if m < r then s
      else if r = m then (some m, s.2 ++ [p])
      else (some r, [p])

/-- One step of the degree-heuristic scan of `select_variable` (state: selected
position and its degree; a strictly larger degree replaces the selection). -/
def degStep (b : Board) (s : Option (Pos × Nat)) (p : Pos) : Option (Pos × Nat) :=
  match s with
  | none => some (p, unassigned_neighbors_count b p.1 p.2)
  | some (q, dq) =>
    if dq < unassigned_neighbors_count b p.1 p.2 then
      some (p, unassigned_neighbors_count b p.1 p.2)
    else some (q, dq)

/-- Source `select_variable`: MRV scan in row-major order, then the degree
heuristic over the tied candidates. -/
def select_variable (b : Board) : Option Pos :=
  let mrv := (allPositions.foldl (mrvStep b) (none, [])).2
  (mrv.foldl (degStep b) none).map Prod.fst

/-- Result of the recursive `backtrack` closure: Python returns the (mutated)
board on success and `False` on failure; `failed` carries the board's final
state so restoration is expressible. -/
inductive BtResult where
  | found (b : Board)
  | failed (b : Board)

/-- The board carried by a `BtResult`. -/
def btBoard : BtResult → Board
  | .found b => b
  | .failed b => b

/-- Set the value field of cell (i, j) (the statement `var.value = str(val)`). -/
def setValue (b : Board) (i j : Idx) (v : Nat) : Board :=
  updCell b i j (fun c => { c with value := v })

/-- The `for val in range(1, len(var.domain)+1)` loop body of `backtrack`:
skip pruned values, otherwise assign, forward check, recurse through `bt`,
and on failure undo the inferences and the assignment before moving on. -/
def tryVals (bt : Board → BtResult) (b : Board) (i j : Idx) : List Nat → BtResult
  | [] => .failed b
  | v :: rest =>
    if (b i j).domain.getD (v - 1) 0 = 0 then tryVals bt b i j rest
    else
      let b1 := setValue b i j v
      match forward_check b1 i j with
      | (consistent, original, b2) =>
        match (if consistent then bt b2 else BtResult.failed b2) with
        | .found bs => .found bs
        | .failed b3 =>
          let b4 := setValue (remove_inferences b3 original) i j 0
          tryVals bt b4 i j rest

/-- The recursive `backtrack` closure of `backtracking_search`, with fuel. -/
def backtrack : Nat → Board → BtResult
  | 0, b => .failed b
  | fuel + 1, b =>
    if assignment_complete b then .found b
    else
      match select_variable b with
      | none => .failed b
      | some (i, j) =>
        tryVals (backtrack fuel) b i j ((List.range (b i j).domain.length).map (· + 1))

/-- Source `backtracking_search`: run `backtrack`; `some` is a returned board,
`none` is the `False` failure signal. -/
def backtracking_search (b : Board) : Option Board :=
  match backtrack 82 b with
  | .found b1 => some b1
  | .failed _ => none

/-- Digit `d` is still present in the cell's domain (`domain[d-1]` truthy). -/
def domainHas (c : Variable) (d : Nat) : Prop := c.domain.getD (d - 1) 0 ≠ 0

/-- White-dot relation: the two values are consecutive. -/
def whiteOK (a b : Nat) : Prop := a + 1 = b ∨ b + 1 = a

/-- Black-dot relation: one value is exactly double the other. -/
def blackOK (a b : Nat) : Prop := a = 2 * b ∨ b = 2 * a

/-- The relation demanded by a dot field (no dot demands nothing). -/
def dotOK (dt a b : Nat) : Prop :=
  if dt = 1 then whiteOK a b else if dt = 2 then blackOK a b else True

/-- Positions p and q lie in the same 3x3 box. -/
def sameBox (p q : Pos) : Prop := p.1.val / 3 = q.1.val / 3 ∧ p.2.val / 3 = q.2.val / 3

/-- Distinct positions constrained by row, column, or box uniqueness. -/
def rcbConstrains (p q : Pos) : Prop :=
  p ≠ q ∧ (p.1 = q.1 ∨ p.2 = q.2 ∨ sameBox p q)

/-- A fully valid solved board: distinct values across every row, column and
box, and every dot edge (all four fields, in bounds) satisfied. -/
def completeOK (b : Board) : Prop :=
  (∀ p q : Pos, rcbConstrains p q → (b p.1 p.2).value ≠ (b q.1 q.2).value) ∧
  (∀ i j : Idx, (b i j).down ≠ 0 → i.val < 8 → dotOK (b i j).down (b i j).value (b (i + 1) j).value) ∧
  (∀ i j : Idx, (b i j).right ≠ 0 → j.val < 8 → dotOK (b i j).right (b i j).value (b i (j + 1)).value) ∧
  (∀ i j : Idx, (b i j).up ≠ 0 → 0 < i.val → dotOK (b i j).up (b i j).value (b (i - 1) j).value) ∧
  (∀ i j : Idx, (b i j).left ≠ 0 → 0 < j.val → dotOK (b i j).left (b i j).value (b i (j - 1)).value)

/-- Invariant A: every pair of assigned cells already satisfies all constraints. -/
def InvA (b : Board) : Prop :=
  (∀ p q : Pos, rcbConstrains p q → (b p.1 p.2).value ≠ 0 → (b q.1 q.2).value ≠ 0 →
    (b p.1 p.2).value ≠ (b q.1 q.2).value) ∧
  (∀ i j : Idx, (b i j).down ≠ 0 → i.val < 8 → (b i j).value ≠ 0 → (b (i + 1) j).value ≠ 0 →
    dotOK (b i j).down (b i j).value (b (i + 1) j).value) ∧
  (∀ i j : Idx, (b i j).right ≠ 0 → j.val < 8 → (b i j).value ≠ 0 → (b i (j + 1)).value ≠ 0 →
    dotOK (b i j).right (b i j).value (b i (j + 1)).value) ∧
  (∀ i j : Idx, (b i j).up ≠ 0 → 0 < i.val → (b i j).value ≠ 0 → (b (i - 1) j).value ≠ 0 →
    dotOK (b i j).up (b i j).value (b (i - 1) j).value) ∧
  (∀ i j : Idx, (b i j).left ≠ 0 → 0 < j.val → (b i j).value ≠ 0 → (b i (j - 1)).value ≠ 0 →
    dotOK (b i j).left (b i j).value (b i (j - 1)).value)

/-- Invariant B: the domain of every unassigned cell only contains values
compatible with every assigned cell that constrains it. -/
def InvB (b : Board) : Prop :=
  ∀ i j : Idx, (b i j).value = 0 → ∀ d : Nat, 1 ≤ d → domainHas (b i j) d →
    (∀ q : Pos, rcbConstrains (i, j) q → (b q.1 q.2).value ≠ 0 → d ≠ (b q.1 q.2).value) ∧
    ((b i j).down ≠ 0 → i.val < 8 → (b (i + 1) j).value ≠ 0 →
      dotOK (b i j).down d (b (i + 1) j).value) ∧
    ((b i j).right ≠ 0 → j.val < 8 → (b i (j + 1)).value ≠ 0 →
      dotOK (b i j).right d (b i (j + 1)).value) ∧
    ((b i j).up ≠ 0 → 0 < i.val → (b (i - 1) j).value ≠ 0 →
      dotOK (b i j).up d (b (i - 1) j).value) ∧
    ((b i j).left ≠ 0 → 0 < j.val → (b i (j - 1)).value ≠ 0 →
      dotOK (b i j).left d (b i (j - 1)).value)

/-- Dot metadata is symmetric along every edge (spec section 3 invariant),
stated in all four directions. -/
def symmetricDots (b : Board) : Prop :=
  (∀ i j : Idx, i.val < 8 → (b i j).down = (b (i + 1) j).up) ∧
  (∀ i j : Idx, 0 < i.val → (b i j).up = (b (i - 1) j).down) ∧
  (∀ i j : Idx, j.val < 8 → (b i j).right = (b i (j + 1)).left) ∧
  (∀ i j : Idx, 0 < j.val → (b i j).left = (b i (j - 1)).right)

/-- The unassigned positions, in row-major scan order. -/
def unassignedList (b : Board) : List Pos :=
  allPositions.filter (fun p => !(b p.1 p.2).assigned)

/-- Two cells agree on everything except possibly the domain. -/
def sameShape (x y : Variable) : Prop :=
  x.value = y.value ∧ x.up = y.up ∧ x.down = y.down ∧ x.left = y.left ∧ x.right = y.right

/-- Two cells agree on the four dot-edge fields. -/
def sameDots (x y : Variable) : Prop :=
  x.up = y.up ∧ x.down = y.down ∧ x.left = y.left ∧ x.right = y.right

/-- Row-major rank of a position, for stating tie-breaking order. -/
def rmPos (p : Pos) : Nat := p.1.val * 9 + p.2.val

instance (p q : Pos) : Decidable (sameBox p q) := by
  unfold sameBox; infer_instance

instance (p q : Pos) : Decidable (rcbConstrains p q) := by
  unfold rcbConstrains; infer_instance

instance (a b : Nat) : Decidable (whiteOK a b) := by
  unfold whiteOK; infer_instance

instance (a b : Nat) : Decidable (blackOK a b) := by
  unfold blackOK; infer_instance

instance (dt a b : Nat) : Decidable (dotOK dt a b) := by
  unfold dotOK; split
  · infer_instance
  · split <;> infer_instance

instance (b : Board) : Decidable (completeOK b) := by
  unfold completeOK; infer_instance

instance (b : Board) : Decidable (InvA b) := by
  unfold InvA
  refine @instDecidableAnd _ _ ?_ (@instDecidableAnd _ _ ?_ (@instDecidableAnd _ _ ?_
    (@instDecidableAnd _ _ ?_ ?_))) <;> infer_instance

instance (b : Board) : Decidable (symmetricDots b) := by
  unfold symmetricDots; infer_instance

/-- The all-candidates initial domain (source constant `DOMAIN`). -/
def DOMAIN9 : List Nat := [1, 1, 1, 1, 1, 1, 1, 1, 1]

/-- A cell with the given value, full domain and no dot edges. -/
def mkCell (v : Nat) : Variable :=
  { value := v, domain := DOMAIN9, up := 0, down := 0, left := 0, right := 0 }

/-- A canonical valid complete Sudoku filling. -/
def sudokuVal (i j : Idx) : Nat := (3 * (i.val % 3) + i.val / 3 + j.val) % 9 + 1

/-- A fully assigned, fully valid board with no dots. -/
def solvedBoard : Board := fun i j => mkCell (sudokuVal i j)

/-- A fully assigned board with the same digit everywhere: wildly contradictory
given clues that the search nevertheless returns untouched. -/
def allFivesBoard : Board := fun _ _ => mkCell 5

/-- A board with no clue at all and full domains. -/
def emptyBoard : Board := fun _ _ => mkCell 0

/-- Contradictory-clue puzzle: the canonical solved grid, with the clue at
(0,0) replaced by 2 (duplicating the given 2 at (0,1)) and the cell (8,8)
left open. -/
def dupClueBoard : Board := fun i j =>
  if i = 0 ∧ j = 0 then mkCell 2
  else if i = 8 ∧ j = 8 then mkCell 0
  else mkCell (sudokuVal i j)

/-- A board whose single open cell has an already-empty domain. -/
def stuckBoard : Board := fun i j =>
  if i = 0 ∧ j = 0 then
    { value := 0, domain := [0, 0, 0, 0, 0, 0, 0, 0, 0], up := 0, down := 0, left := 0, right := 0 }
  else mkCell (sudokuVal i j)

/-- The canonical solved grid with only the cell (8,8) left open. -/
def oneOpenBoard : Board := fun i j =>
  if i = 8 ∧ j = 8 then mkCell 0 else mkCell (sudokuVal i j)

/-- A board on which forward checking from (0,0) wipes out the domain of the
neighbor (0,1). -/
def fcFailBoard : Board := fun i j =>
  if i = 0 ∧ j = 0 then mkCell 1
  else if i = 0 ∧ j = 1 then
    { value := 0, domain := [1, 0, 0, 0, 0, 0, 0, 0, 0], up := 0, down := 0, left := 0, right := 0 }
  else mkCell 0

theorem getD_set_same (l : List Nat) (n : Nat) : (l.set n 0).getD n 0 = 0 := by
  induction l generalizing n with
  | nil => simp [List.getD]
  | cons x xs ih =>
    cases n with
    | zero => simp
    | succ m => simpa using ih m

theorem getD_set_other (l : List Nat) (n k a : Nat) (h : k ≠ n) :
    (l.set n a).getD k 0 = l.getD k 0 := by
  induction l generalizing n k with
  | nil => simp
  | cons x xs ih =>
    cases n with
    | zero => cases k with
      | zero => exact absurd rfl h
      | succ m => simp
    | succ nn => cases k with
      | zero => simp
      | succ m => simpa using ih nn m (fun hh => h (by omega))

theorem pruneToRemain_length (remain : List Nat) (s : Nat) (l : List Nat) :
    (pruneToRemain remain s l).length = l.length := by
  induction l generalizing s with
  | nil => rfl
  | cons x xs ih => simpa [pruneToRemain] using ih (s + 1)

theorem pruneToRemain_getD (remain : List Nat) (s : Nat) (l : List Nat) (k : Nat)
    (h : (pruneToRemain remain s l).getD k 0 ≠ 0) :
    s + k + 1 ∈ remain ∧ l.getD k 0 ≠ 0 := by
  induction l generalizing s k with
  | nil => simp [pruneToRemain] at h
  | cons x xs ih =>
    cases k with
    | zero =>
      simp only [pruneToRemain, List.getD_cons_zero] at h
      by_cases hm : s + 1 ∈ remain
      · simpa [hm] using And.intro hm (by simpa [hm] using h)
      · simp [hm] at h
    | succ m =>
      simp only [pruneToRemain, List.getD_cons_succ] at h
      obtain ⟨h1, h2⟩ := ih (s + 1) m h
      refine ⟨?_, h2⟩
      have he : s + 1 + m + 1 = s + (m + 1) + 1 := by omega
      rwa [he] at h1

theorem updCell_same (b : Board) (i j : Idx) (f : Variable → Variable) :
    (updCell b i j f) i j = f (b i j) := by
  simp [updCell]

theorem updCell_ne (b : Board) (i j : Idx) (f : Variable → Variable) (r c : Idx)
    (h : ¬(r = i ∧ c = j)) : (updCell b i j f) r c = b r c := by
  simp [updCell, h]

theorem fin9_sub_one_ne : ∀ i : Idx, i - 1 ≠ i := by decide

theorem fin9_add_one_ne : ∀ i : Idx, i + 1 ≠ i := by decide

theorem fin9_add_then_sub : ∀ r i : Idx, r + 1 = i → i - 1 = r := by decide

theorem fin9_sub_then_add : ∀ r i : Idx, r - 1 = i → i + 1 = r := by decide

theorem fin9_add_val : ∀ i : Idx, i.val < 8 → (i + 1).val = i.val + 1 := by decide

theorem fin9_sub_val : ∀ i : Idx, 0 < i.val → (i - 1).val = i.val - 1 := by decide

theorem fin9_sub_add_cancel : ∀ i : Idx, 0 < i.val → (i - 1) + 1 = i := by decide

theorem fin9_add_sub_cancel : ∀ i : Idx, i.val < 8 → (i + 1) - 1 = i := by decide

theorem mem_rowPositions {i j : Idx} {p : Pos} :
    p ∈ rowPositions i j ↔ p.1 = i ∧ p.2 ≠ j := by
  simp only [rowPositions, List.mem_filterMap, List.mem_finRange, true_and]
  constructor
  · rintro ⟨k, hk⟩
    by_cases h : k = j
    · simp [h] at hk
    · simp [h] at hk
      subst hk
      exact ⟨rfl, h⟩
  · rintro ⟨h1, h2⟩
    refine ⟨p.2, ?_⟩
    simp [h2, ← h1]

theorem mem_colPositions {i j : Idx} {p : Pos} :
    p ∈ colPositions i j ↔ p.2 = j ∧ p.1 ≠ i := by
  simp only [colPositions, List.mem_filterMap, List.mem_finRange, true_and]
  constructor
  · rintro ⟨k, hk⟩
    by_cases h : k = i
    · simp [h] at hk
    · simp [h] at hk
      subst hk
      exact ⟨rfl, h⟩
  · rintro ⟨h1, h2⟩
    refine ⟨p.1, ?_⟩
    simp [h2, ← h1]

theorem mem_box_indexes {i j : Idx} {p : Pos} :
    p ∈ box_indexes i j ↔ p.1.val / 3 = i.val / 3 ∧ p.2.val / 3 = j.val / 3 := by
  obtain ⟨⟨pi, hpi⟩, ⟨pj, hpj⟩⟩ := p
  have hi := i.isLt
  have hj := j.isLt
  simp only [box_indexes, f9, List.mem_cons, List.not_mem_nil, or_false, Prod.mk.injEq,
    Fin.mk.injEq]
  constructor
  · intro h
    rcases h with ⟨h1, h2⟩ | ⟨h1, h2⟩ | ⟨h1, h2⟩ | ⟨h1, h2⟩ | ⟨h1, h2⟩ | ⟨h1, h2⟩ | ⟨h1, h2⟩ |
      ⟨h1, h2⟩ | ⟨h1, h2⟩ <;> omega
  · intro ⟨h1, h2⟩
    omega

theorem mem_boxPositions {i j : Idx} {p : Pos} :
    p ∈ boxPositions i j ↔ sameBox p (i, j) ∧ p.1 ≠ i ∧ p.2 ≠ j := by
  simp only [boxPositions, List.mem_filter, mem_box_indexes, sameBox, Bool.and_eq_true,
    bne_iff_ne, ne_eq]

theorem mem_posNeighbors {i j : Idx} {p : Pos} :
    p ∈ posNeighbors i j ↔ rcbConstrains (i, j) p := by
  simp only [posNeighbors, List.mem_append, mem_rowPositions, mem_colPositions, mem_boxPositions,
    rcbConstrains, sameBox, ne_eq]
  obtain ⟨⟨pi, hpi⟩, ⟨pj, hpj⟩⟩ := p
  obtain ⟨iv, hiv⟩ := i
  obtain ⟨jv, hjv⟩ := j
  simp only [Prod.mk.injEq, Fin.mk.injEq]
  omega

theorem mem_allPositions (p : Pos) : p ∈ allPositions := by
  simp only [allPositions, List.mem_flatMap, List.mem_map, List.mem_finRange, true_and]
  exact ⟨p.1, p.2, rfl⟩

theorem nodup_rowPositions (i j : Idx) : (rowPositions i j).Nodup := by
  refine List.Nodup.filterMap ?_ (List.nodup_finRange 9)
  intro a b c hac hbc
  by_cases ha : a = j
  · simp [ha] at hac
  · by_cases hb : b = j
    · simp [hb] at hbc
    · simp only [ha, if_false, Option.mem_def, Option.some.injEq] at hac
      simp only [hb, if_false, Option.mem_def, Option.some.injEq] at hbc
      rw [← hbc] at hac
      exact (Prod.mk.injEq _ _ _ _ ▸ hac).2

theorem nodup_colPositions (i j : Idx) : (colPositions i j).Nodup := by
  refine List.Nodup.filterMap ?_ (List.nodup_finRange 9)
  intro a b c hac hbc
  by_cases ha : a = i
  · simp [ha] at hac
  · by_cases hb : b = i
    · simp [hb] at hbc
    · simp only [ha, if_false, Option.mem_def, Option.some.injEq] at hac
      simp only [hb, if_false, Option.mem_def, Option.some.injEq] at hbc
      rw [← hbc] at hac
      exact (Prod.mk.injEq _ _ _ _ ▸ hac).1

theorem nodup_box_indexes (i j : Idx) : (box_indexes i j).Nodup := by
  have hi := i.isLt
  have hj := j.isLt
  simp only [box_indexes, f9, List.nodup_cons, List.mem_cons, List.not_mem_nil, or_false,
    List.nodup_nil, and_true, true_and, Prod.mk.injEq, Fin.mk.injEq, not_or, not_false_iff]
  omega

theorem nodup_boxPositions (i j : Idx) : (boxPositions i j).Nodup :=
  List.Nodup.filter _ (nodup_box_indexes i j)

theorem nodup_posNeighbors (i j : Idx) : (posNeighbors i j).Nodup := by
  rw [posNeighbors, List.append_assoc, List.nodup_append]
  refine ⟨nodup_rowPositions i j, ?_, ?_⟩
  · rw [List.nodup_append]
    refine ⟨nodup_colPositions i j, nodup_boxPositions i j, ?_⟩
    intro p hp hq
    rw [mem_colPositions] at hp
    rw [mem_boxPositions] at hq
    exact hq.2.2 hp.1
  · intro p hp hq
    rw [mem_rowPositions] at hp
    rw [List.mem_append, mem_colPositions, mem_boxPositions] at hq
    rcases hq with ⟨h1, h2⟩ | ⟨h1, h2, h3⟩
    · exact h2 hp.1
    · exact h2 hp.1

theorem sameShape_refl (x : Variable) : sameShape x x := ⟨rfl, rfl, rfl, rfl, rfl⟩

theorem sameShape_trans {x y z : Variable} (h1 : sameShape x y) (h2 : sameShape y z) :
    sameShape x z :=
  ⟨h1.1.trans h2.1, h1.2.1.trans h2.2.1, h1.2.2.1.trans h2.2.2.1,
   h1.2.2.2.1.trans h2.2.2.2.1, h1.2.2.2.2.trans h2.2.2.2.2⟩

theorem sameShape_assigned {x y : Variable} (h : sameShape x y) : x.assigned = y.assigned := by
  unfold Variable.assigned
  rw [h.1]

theorem sameShape_ext {x y : Variable} (h : sameShape x y) (hd : x.domain = y.domain) : x = y :=
  Variable.ext h.1 hd h.2.1 h.2.2.1 h.2.2.2.1 h.2.2.2.2

theorem updCell_domain_shape (b : Board) (i j : Idx) (g : Variable → List Nat) (r c : Idx) :
    sameShape ((updCell b i j fun x => { x with domain := g x }) r c) (b r c) := by
  unfold updCell
  split
  · exact ⟨rfl, rfl, rfl, rfl, rfl⟩
  · exact sameShape_refl _

theorem pruneValue_shape (b : Board) (p : Pos) (v : Nat) (r c : Idx) :
    sameShape ((pruneValue b p v) r c) (b r c) :=
  updCell_domain_shape b p.1 p.2 _ r c

theorem pruneValue_ne (b : Board) (p : Pos) (v : Nat) (r c : Idx) (h : ¬(r = p.1 ∧ c = p.2)) :
    (pruneValue b p v) r c = b r c :=
  updCell_ne b p.1 p.2 _ r c h

theorem pruneValue_same (b : Board) (p : Pos) (v : Nat) :
    (pruneValue b p v) p.1 p.2 =
      { b p.1 p.2 with domain := (b p.1 p.2).domain.set (v - 1) 0 } :=
  updCell_same b p.1 p.2 _

theorem fcPrunePos_shape (v : Nat) (L : List Pos) : ∀ (b : Board) (r c : Idx),
    sameShape ((fcPrunePos b v L).2 r c) (b r c) := by
  induction L with
  | nil => intro b r c; exact sameShape_refl _
  | cons p rest ih =>
    intro b r c
    show sameShape ((fcPrunePos b v (p :: rest)).2 r c) (b r c)
    unfold fcPrunePos
    split
    · exact ih b r c
    · dsimp only
      split
      · exact pruneValue_shape b p v r c
      · exact sameShape_trans (ih _ r c) (pruneValue_shape b p v r c)

theorem fcDot_shape (b : Board) (p : Pos) (dt v : Nat) (r c : Idx) :
    sameShape ((fcDot b p dt v).2 r c) (b r c) := by
  unfold fcDot
  split
  · dsimp only
    split
    · exact updCell_domain_shape b p.1 p.2 _ r c
    · exact updCell_domain_shape b p.1 p.2 _ r c
  · exact sameShape_refl _

theorem fcDot_outside (b : Board) (p : Pos) (dt v : Nat) (r c : Idx)
    (h : (r = p.1 ∧ c = p.2) → ¬(dt ≠ 0 ∧ (b p.1 p.2).assigned = false)) :
    (fcDot b p dt v).2 r c = b r c := by
  unfold fcDot
  split
  · rename_i hg
    have hne : ¬(r = p.1 ∧ c = p.2) := fun hrc => h hrc hg
    dsimp only
    split
    · dsimp only
      exact updCell_ne b p.1 p.2 _ r c hne
    · dsimp only
      exact updCell_ne b p.1 p.2 _ r c hne
  · rfl

theorem fcDot_target (b : Board) (p : Pos) (dt v : Nat)
    (hg : dt ≠ 0 ∧ (b p.1 p.2).assigned = false) :
    (fcDot b p dt v).2 p.1 p.2 =
      { b p.1 p.2 with domain := pruneToRemain (dot_remains dt v) 0 (b p.1 p.2).domain } := by
  unfold fcDot
  rw [if_pos hg]
  dsimp only
  split
  · dsimp only
    exact updCell_same b p.1 p.2 _
  · dsimp only
    exact updCell_same b p.1 p.2 _

theorem fcPrunePos_untouched (v : Nat) (L : List Pos) : ∀ (b : Board) (r c : Idx),
    ((r, c) ∈ L → (b r c).assigned = true) → (fcPrunePos b v L).2 r c = b r c := by
  induction L with
  | nil => intro b r c _; rfl
  | cons p rest ih =>
    intro b r c h
    show (fcPrunePos b v (p :: rest)).2 r c = b r c
    unfold fcPrunePos
    split
    · exact ih b r c (fun hm => h (List.mem_cons_of_mem p hm))
    · rename_i hna
      have hne : ¬(r = p.1 ∧ c = p.2) := by
        rintro ⟨hr, hc⟩
        subst hr
        subst hc
        exact hna (h (List.mem_cons_self _ _))
      dsimp only
      split
      · exact pruneValue_ne b p v r c hne
      · rw [ih _ r c ?_, pruneValue_ne b p v r c hne]
        intro hm
        rw [(sameShape_assigned (pruneValue_shape b p v r c) : _)]
        exact h (List.mem_cons_of_mem p hm)

theorem remove_inferences_untouched (orig : Record) : ∀ (b : Board) (r c : Idx),
    ((r, c) ∉ orig.map Prod.fst) → remove_inferences b orig r c = b r c := by
  induction orig with
  | nil => intro b r c _; rfl
  | cons pr rest ih =>
    intro b r c h
    simp only [List.map_cons, List.mem_cons, not_or] at h
    show remove_inferences (updCell b pr.1.1 pr.1.2 _) rest r c = b r c
    rw [ih _ r c (by simpa using h.2)]
    refine updCell_ne b pr.1.1 pr.1.2 _ r c ?_
    rintro ⟨hr, hc⟩
    exact h.1 (Prod.ext hr hc)

theorem remove_inferences_restores (orig : Record) : ∀ (b : Board),
    (orig.map Prod.fst).Nodup → ∀ pr ∈ orig,
      remove_inferences b orig pr.1.1 pr.1.2 = { b pr.1.1 pr.1.2 with domain := pr.2 } := by
  induction orig with
  | nil => intro b _ pr hpr; exact absurd hpr (List.not_mem_nil pr)
  | cons hd rest ih =>
    intro b hnd pr hpr
    simp only [List.map_cons, List.nodup_cons] at hnd
    rcases List.mem_cons.mp hpr with heq | hmem
    · subst heq
      show remove_inferences (updCell b pr.1.1 pr.1.2 _) rest pr.1.1 pr.1.2 = _
      rw [remove_inferences_untouched rest _ pr.1.1 pr.1.2 ?_]
      · exact updCell_same b pr.1.1 pr.1.2 _
      · intro hm
        exact hnd.1 (by simpa using hm)
    · show remove_inferences (updCell b hd.1.1 hd.1.2 _) rest pr.1.1 pr.1.2 = _
      rw [ih _ hnd.2 pr hmem]
      have hne : ¬(pr.1.1 = hd.1.1 ∧ pr.1.2 = hd.1.2) := by
        rintro ⟨hr, hc⟩
        refine hnd.1 ?_
        have : pr.1 = hd.1 := Prod.ext hr hc
        rw [← this]
        exact List.mem_map_of_mem Prod.fst hmem
      rw [updCell_ne b hd.1.1 hd.1.2 _ pr.1.1 pr.1.2 hne]

theorem up_target_mem (i j : Idx) : ((i - 1 : Idx), j) ∈ posNeighbors i j := by
  unfold posNeighbors
  exact List.mem_append.mpr (Or.inl (List.mem_append.mpr (Or.inr
    (mem_colPositions.mpr ⟨rfl, fin9_sub_one_ne i⟩))))

theorem down_target_mem (i j : Idx) : ((i + 1 : Idx), j) ∈ posNeighbors i j := by
  unfold posNeighbors
  exact List.mem_append.mpr (Or.inl (List.mem_append.mpr (Or.inr
    (mem_colPositions.mpr ⟨rfl, fin9_add_one_ne i⟩))))

theorem left_target_mem (i j : Idx) : (i, (j - 1 : Idx)) ∈ posNeighbors i j := by
  unfold posNeighbors
  exact List.mem_append.mpr (Or.inl (List.mem_append.mpr (Or.inl
    (mem_rowPositions.mpr ⟨rfl, fin9_sub_one_ne j⟩))))

theorem right_target_mem (i j : Idx) : (i, (j + 1 : Idx)) ∈ posNeighbors i j := by
  unfold posNeighbors
  exact List.mem_append.mpr (Or.inl (List.mem_append.mpr (Or.inl
    (mem_rowPositions.mpr ⟨rfl, fin9_add_one_ne j⟩))))

theorem forward_check_spec (b : Board) (i j : Idx) :
    (forward_check b i j).2.1 = collectOriginal b i j ∧
    (∀ r c, sameShape ((forward_check b i j).2.2 r c) (b r c)) ∧
    (∀ r c, ((r, c) ∈ posNeighbors i j → (b r c).assigned = true) →
      (forward_check b i j).2.2 r c = b r c) := by
  unfold forward_check
  dsimp only
  rcases h1 : fcPrunePos b (b i j).value (posNeighbors i j) with ⟨f1, b1⟩
  have s1 : ∀ r c, sameShape (b1 r c) (b r c) := by
    intro r c
    have h := fcPrunePos_shape (b i j).value (posNeighbors i j) b r c
    rw [h1] at h
    exact h
  have u1 : ∀ r c, ((r, c) ∈ posNeighbors i j → (b r c).assigned = true) → b1 r c = b r c := by
    intro r c h
    have h2 := fcPrunePos_untouched (b i j).value (posNeighbors i j) b r c h
    rw [h1] at h2
    exact h2
  cases f1 with
  | false => exact ⟨rfl, s1, u1⟩
  | true =>
  dsimp only
  rcases h2 : fcDot b1 (i - 1, j) (b1 i j).up (b i j).value with ⟨f2, b2⟩
  have s2 : ∀ r c, sameShape (b2 r c) (b r c) := by
    intro r c
    have h := fcDot_shape b1 (i - 1, j) (b1 i j).up (b i j).value r c
    rw [h2] at h
    exact sameShape_trans h (s1 r c)
  have u2 : ∀ r c, ((r, c) ∈ posNeighbors i j → (b r c).assigned = true) → b2 r c = b r c := by
    intro r c h
    have hx3 := fcDot_outside b1 (i - 1, j) (b1 i j).up (b i j).value r c (by
      rintro ⟨hr, hc⟩ ⟨hdt, hna⟩
      have hmem : (r, c) ∈ posNeighbors i j := by
        rw [hr, hc]
        exact up_target_mem i j
      have hb : (b1 r c).assigned = false := by
        rw [hr, hc]
        exact hna
      rw [sameShape_assigned (s1 r c), h hmem] at hb
      exact Bool.noConfusion hb)
    rw [h2] at hx3
    dsimp only at hx3
    rw [hx3]
    exact u1 r c h
  cases f2 with
  | false => exact ⟨rfl, s2, u2⟩
  | true =>
  dsimp only
  rcases h3 : fcDot b2 (i + 1, j) (b2 i j).down (b i j).value with ⟨f3, b3⟩
  have s3 : ∀ r c, sameShape (b3 r c) (b r c) := by
    intro r c
    have h := fcDot_shape b2 (i + 1, j) (b2 i j).down (b i j).value r c
    rw [h3] at h
    exact sameShape_trans h (s2 r c)
  have u3 : ∀ r c, ((r, c) ∈ posNeighbors i j → (b r c).assigned = true) → b3 r c = b r c := by
    intro r c h
    have hx4 := fcDot_outside b2 (i + 1, j) (b2 i j).down (b i j).value r c (by
      rintro ⟨hr, hc⟩ ⟨hdt, hna⟩
      have hmem : (r, c) ∈ posNeighbors i j := by
        rw [hr, hc]
        exact down_target_mem i j
      have hb : (b2 r c).assigned = false := by
        rw [hr, hc]
        exact hna
      rw [sameShape_assigned (s2 r c), h hmem] at hb
      exact Bool.noConfusion hb)
    rw [h3] at hx4
    dsimp only at hx4
    rw [hx4]
    exact u2 r c h
  cases f3 with
  | false => exact ⟨rfl, s3, u3⟩
  | true =>
  dsimp only
  rcases h4 : fcDot b3 (i, j - 1) (b3 i j).left (b i j).value with ⟨f4, b4⟩
  have s4 : ∀ r c, sameShape (b4 r c) (b r c) := by
    intro r c
    have h := fcDot_shape b3 (i, j - 1) (b3 i j).left (b i j).value r c
    rw [h4] at h
    exact sameShape_trans h (s3 r c)
  have u4 : ∀ r c, ((r, c) ∈ posNeighbors i j → (b r c).assigned = true) → b4 r c = b r c := by
    intro r c h
    have hx5 := fcDot_outside b3 (i, j - 1) (b3 i j).left (b i j).value r c (by
      rintro ⟨hr, hc⟩ ⟨hdt, hna⟩
      have hmem : (r, c) ∈ posNeighbors i j := by
        rw [hr, hc]
        exact left_target_mem i j
      have hb : (b3 r c).assigned = false := by
        rw [hr, hc]
        exact hna
      rw [sameShape_assigned (s3 r c), h hmem] at hb
      exact Bool.noConfusion hb)
    rw [h4] at hx5
    dsimp only at hx5
    rw [hx5]
    exact u3 r c h
  cases f4 with
  | false => exact ⟨rfl, s4, u4⟩
  | true =>
  dsimp only
  rcases h5 : fcDot b4 (i, j + 1) (b4 i j).right (b i j).value with ⟨f5, b5⟩
  have s5 : ∀ r c, sameShape (b5 r c) (b r c) := by
    intro r c
    have h := fcDot_shape b4 (i, j + 1) (b4 i j).right (b i j).value r c
    rw [h5] at h
    exact sameShape_trans h (s4 r c)
  have u5 : ∀ r c, ((r, c) ∈ posNeighbors i j → (b r c).assigned = true) → b5 r c = b r c := by
    intro r c h
    have hx6 := fcDot_outside b4 (i, j + 1) (b4 i j).right (b i j).value r c (by
      rintro ⟨hr, hc⟩ ⟨hdt, hna⟩
      have hmem : (r, c) ∈ posNeighbors i j := by
        rw [hr, hc]
        exact right_target_mem i j
      have hb : (b4 r c).assigned = false := by
        rw [hr, hc]
        exact hna
      rw [sameShape_assigned (s4 r c), h hmem] at hb
      exact Bool.noConfusion hb)
    rw [h5] at hx6
    dsimp only at hx6
    rw [hx6]
    exact u4 r c h
  cases f5 with
  | false => exact ⟨rfl, s5, u5⟩
  | true => exact ⟨rfl, s5, u5⟩

theorem collectOriginal_fst (b : Board) (i j : Idx) :
    (collectOriginal b i j).map Prod.fst =
      (posNeighbors i j).filter (fun p => !(b p.1 p.2).assigned) := by
  unfold collectOriginal
  rw [List.map_map]
  exact List.map_id'' (fun p => rfl) _

theorem collectOriginal_nodup_fst (b : Board) (i j : Idx) :
    ((collectOriginal b i j).map Prod.fst).Nodup := by
  rw [collectOriginal_fst]
  exact List.Nodup.filter _ (nodup_posNeighbors i j)

theorem mem_collectOriginal {b : Board} {i j : Idx} {p : Pos}
    (h1 : p ∈ posNeighbors i j) (h2 : (b p.1 p.2).assigned = false) :
    (p, (b p.1 p.2).domain) ∈ collectOriginal b i j := by
  unfold collectOriginal
  exact List.mem_map_of_mem _ (List.mem_filter.mpr ⟨h1, by simp [h2]⟩)

theorem fc_restore (b : Board) (i j : Idx) :
    remove_inferences ((forward_check b i j).2.2) ((forward_check b i j).2.1) = b := by
  obtain ⟨hrec, hshape, hout⟩ := forward_check_spec b i j
  funext r c
  rw [hrec]
  by_cases hm : (r, c) ∈ posNeighbors i j ∧ (b r c).assigned = false
  · have hentry : ((r, c), (b r c).domain) ∈ collectOriginal b i j :=
      mem_collectOriginal hm.1 hm.2
    have hres := remove_inferences_restores (collectOriginal b i j)
      ((forward_check b i j).2.2) (collectOriginal_nodup_fst b i j) _ hentry
    dsimp only at hres
    rw [hres]
    exact sameShape_ext
      ⟨(hshape r c).1, (hshape r c).2.1, (hshape r c).2.2.1,
       (hshape r c).2.2.2.1, (hshape r c).2.2.2.2⟩ rfl
  · have hnot : (r, c) ∉ (collectOriginal b i j).map Prod.fst := by
      rw [collectOriginal_fst]
      intro hmem
      rcases List.mem_filter.mp hmem with ⟨hin, hneg⟩
      exact hm ⟨hin, by simpa using hneg⟩
    rw [remove_inferences_untouched (collectOriginal b i j) _ r c hnot]
    refine hout r c ?_
    intro hin
    by_cases ha : (b r c).assigned = true
    · exact ha
    · exact absurd ⟨hin, by simpa using ha⟩ hm

theorem assigned_false_iff (x : Variable) : x.assigned = false ↔ x.value = 0 := by
  unfold Variable.assigned
  simp

theorem assigned_true_iff (x : Variable) : x.assigned = true ↔ x.value ≠ 0 := by
  unfold Variable.assigned
  simp

theorem setValue_get_same (b : Board) (i j : Idx) (v : Nat) :
    (setValue b i j v) i j = { b i j with value := v } :=
  updCell_same b i j _

theorem setValue_get_ne (b : Board) (i j : Idx) (v : Nat) (r c : Idx) (h : ¬(r = i ∧ c = j)) :
    (setValue b i j v) r c = b r c :=
  updCell_ne b i j _ r c h

theorem setValue_cancel (b : Board) (i j : Idx) (v : Nat) (h : (b i j).value = 0) :
    setValue (setValue b i j v) i j 0 = b := by
  funext r c
  by_cases hrc : r = i ∧ c = j
  · obtain ⟨hr, hc⟩ := hrc
    subst hr
    subst hc
    unfold setValue
    rw [updCell_same, updCell_same]
    ext <;> simp [h]
  · unfold setValue
    rw [updCell_ne _ _ _ _ _ _ hrc, updCell_ne _ _ _ _ _ _ hrc]

theorem assign_fc_undo (b : Board) (i j : Idx) (v : Nat) (h : (b i j).value = 0) :
    setValue (remove_inferences ((forward_check (setValue b i j v) i j).2.2)
      ((forward_check (setValue b i j v) i j).2.1)) i j 0 = b := by
  rw [fc_restore (setValue b i j v) i j]
  exact setValue_cancel b i j v h

theorem mrv_members (b : Board) : ∀ (L : List Pos) (s : Option Nat × List Pos),
    (∀ p ∈ s.2, (b p.1 p.2).assigned = false) →
    ∀ p ∈ (L.foldl (mrvStep b) s).2, (b p.1 p.2).assigned = false := by
  intro L
  induction L with
  | nil => exact fun s h p hp => h p hp
  | cons q rest ih =>
    intro s h
    apply ih
    intro p hp
    unfold mrvStep at hp
    split at hp
    · exact h p hp
    · rename_i hq
      dsimp only at hp
      split at hp
      · simp only [List.mem_singleton] at hp
        subst hp
        exact Bool.not_eq_true _ ▸ (by simpa using hq)
      · split at hp
        · exact h p hp
        · split at hp
          · rcases List.mem_append.mp hp with hin | hin
            · exact h p hin
            · simp only [List.mem_singleton] at hin
              subst hin
              simpa using hq
          · simp only [List.mem_singleton] at hp
            subst hp
            simpa using hq

theorem deg_members (b : Board) (P : Pos → Prop) : ∀ (L : List Pos) (s : Option (Pos × Nat)),
    (∀ q d, s = some (q, d) → P q) → (∀ p ∈ L, P p) →
    ∀ q d, L.foldl (degStep b) s = some (q, d) → P q := by
  intro L
  induction L with
  | nil => exact fun s hs _ q d hq => hs q d hq
  | cons p rest ih =>
    intro s hs hL q d hq
    refine ih (degStep b s p) ?_ (fun x hx => hL x (List.mem_cons_of_mem p hx)) q d hq
    intro q2 d2 heq
    unfold degStep at heq
    rcases s with _ | ⟨⟨q3, d3⟩⟩
    · simp only [Option.some.injEq, Prod.mk.injEq] at heq
      rw [← heq.1]
      exact hL p (List.mem_cons_self p rest)
    · dsimp only at heq
      split at heq
      · simp only [Option.some.injEq, Prod.mk.injEq] at heq
        rw [← heq.1]
        exact hL p (List.mem_cons_self p rest)
      · simp only [Option.some.injEq, Prod.mk.injEq] at heq
        rw [← heq.1]
        exact hs q3 d3 rfl

theorem select_variable_unassigned {b : Board} {p : Pos}
    (h : select_variable b = some p) : (b p.1 p.2).assigned = false := by
  unfold select_variable at h
  rcases Option.map_eq_some'.mp h with ⟨⟨q, d⟩, hfold, hq⟩
  rw [← hq]
  exact deg_members b (fun x => (b x.1 x.2).assigned = false) _ none
    (fun q2 d2 hq2 => Option.noConfusion hq2)
    (mrv_members b allPositions (none, []) (fun p2 hp2 => absurd hp2 (List.not_mem_nil p2)))
    q d hfold

theorem select_variable_value_zero {b : Board} {i j : Idx}
    (h : select_variable b = some (i, j)) : (b i j).value = 0 :=
  (assigned_false_iff _).mp (select_variable_unassigned h)

theorem tryVals_failed (fuel : Nat)
    (ihbt : ∀ b x, backtrack fuel b = .failed x → x = b) :
    ∀ (vals : List Nat) (b : Board) (i j : Idx), (b i j).value = 0 →
      ∀ x, tryVals (backtrack fuel) b i j vals = .failed x → x = b := by
  intro vals
  induction vals with
  | nil =>
    intro b i j _ x hx
    unfold tryVals at hx
    cases hx
    rfl
  | cons v rest ih =>
    intro b i j hun x hx
    unfold tryVals at hx
    split at hx
    · exact ih b i j hun x hx
    · dsimp only at hx
      rcases hfc : forward_check (setValue b i j v) i j with ⟨consistent, original, b2⟩
      rw [hfc] at hx
      dsimp only at hx
      rcases hres : (if consistent = true then backtrack fuel b2 else BtResult.failed b2) with
        bs | b3
      · rw [hres] at hx
        exact BtResult.noConfusion hx
      · rw [hres] at hx
        dsimp only at hx
        have hb3 : b3 = b2 := by
          cases consistent
          · rw [if_neg (by simp)] at hres
            exact (BtResult.failed.injEq _ _ ▸ hres).symm
          · rw [if_pos rfl] at hres
            exact ihbt b2 b3 hres
        rw [hb3] at hx
        have horig : original = (forward_check (setValue b i j v) i j).2.1 := by rw [hfc]
        have hb2eq : b2 = (forward_check (setValue b i j v) i j).2.2 := by rw [hfc]
        rw [horig, hb2eq, assign_fc_undo b i j v hun] at hx
        exact ih b i j hun x hx

theorem backtrack_failed : ∀ (fuel : Nat) (b x : Board),
    backtrack fuel b = .failed x → x = b := by
  intro fuel
  induction fuel with
  | zero =>
    intro b x h
    cases h
    rfl
  | succ n ih =>
    intro b x h
    unfold backtrack at h
    split at h
    · exact BtResult.noConfusion h
    · rcases hsel : select_variable b with _ | ⟨i, j⟩
      · rw [hsel] at h
        cases h
        rfl
      · rw [hsel] at h
        dsimp only at h
        exact tryVals_failed n ih _ b i j (select_variable_value_zero hsel) x h

theorem sameDots_refl (x : Variable) : sameDots x x := ⟨rfl, rfl, rfl, rfl⟩

theorem sameDots_trans {x y z : Variable} (h1 : sameDots x y) (h2 : sameDots y z) :
    sameDots x z :=
  ⟨h1.1.trans h2.1, h1.2.1.trans h2.2.1, h1.2.2.1.trans h2.2.2.1, h1.2.2.2.trans h2.2.2.2⟩

theorem sameShape_dots {x y : Variable} (h : sameShape x y) : sameDots x y :=
  ⟨h.2.1, h.2.2.1, h.2.2.2.1, h.2.2.2.2⟩

theorem setValue_dots (b : Board) (i j : Idx) (v : Nat) (r c : Idx) :
    sameDots ((setValue b i j v) r c) (b r c) := by
  unfold setValue updCell
  split
  · exact ⟨rfl, rfl, rfl, rfl⟩
  · exact sameDots_refl _

theorem remove_inferences_dots (orig : Record) : ∀ (b : Board) (r c : Idx),
    sameDots ((remove_inferences b orig) r c) (b r c) := by
  induction orig with
  | nil => exact fun b r c => sameDots_refl _
  | cons pr rest ih =>
    intro b r c
    show sameDots ((remove_inferences (updCell b pr.1.1 pr.1.2 _) rest) r c) (b r c)
    exact sameDots_trans (ih _ r c)
      (sameShape_dots (updCell_domain_shape b pr.1.1 pr.1.2 _ r c))

theorem forward_check_dots (b : Board) (i j : Idx) (r c : Idx) :
    sameDots (((forward_check b i j).2.2) r c) (b r c) :=
  sameShape_dots ((forward_check_spec b i j).2.1 r c)

theorem tryVals_dots (fuel : Nat)
    (ihbt : ∀ b x, backtrack fuel b = .failed x → x = b)
    (ihdots : ∀ (b : Board) (r c : Idx), sameDots ((btBoard (backtrack fuel b)) r c) (b r c)) :
    ∀ (vals : List Nat) (b : Board) (i j : Idx), (b i j).value = 0 → ∀ (r c : Idx),
      sameDots ((btBoard (tryVals (backtrack fuel) b i j vals)) r c) (b r c) := by
  intro vals
  induction vals with
  | nil => exact fun b i j _ r c => sameDots_refl _
  | cons v rest ih =>
    intro b i j hun r c
    show sameDots ((btBoard (tryVals (backtrack fuel) b i j (v :: rest))) r c) (b r c)
    unfold tryVals
    split
    · exact ih b i j hun r c
    · dsimp only
      rcases hfc : forward_check (setValue b i j v) i j with ⟨consistent, original, b2⟩
      dsimp only
      have hb2dots : ∀ r2 c2 : Idx, sameDots (b2 r2 c2) (b r2 c2) := by
        intro r2 c2
        have hd := forward_check_dots (setValue b i j v) i j r2 c2
        rw [hfc] at hd
        exact sameDots_trans hd (setValue_dots b i j v r2 c2)
      rcases hres : (if consistent = true then backtrack fuel b2 else BtResult.failed b2) with
        bs | b3
      · dsimp only [btBoard]
        have hbs : btBoard (backtrack fuel b2) = bs := by
          cases consistent
          · rw [if_neg (by simp)] at hres
            exact BtResult.noConfusion hres
          · rw [if_pos rfl] at hres
            rw [hres]
            rfl
        have hd := ihdots b2 r c
        rw [hbs] at hd
        exact sameDots_trans hd (hb2dots r c)
      · dsimp only
        have hb3 : b3 = b2 := by
          cases consistent
          · rw [if_neg (by simp)] at hres
            exact (BtResult.failed.injEq _ _ ▸ hres).symm
          · rw [if_pos rfl] at hres
            exact ihbt b2 b3 hres
        rw [hb3]
        have horig : original = (forward_check (setValue b i j v) i j).2.1 := by rw [hfc]
        have hb2eq : b2 = (forward_check (setValue b i j v) i j).2.2 := by rw [hfc]
        rw [horig, hb2eq, assign_fc_undo b i j v hun]
        exact ih b i j hun r c

theorem backtrack_dots : ∀ (fuel : Nat) (b : Board) (r c : Idx),
    sameDots ((btBoard (backtrack fuel b)) r c) (b r c) := by
  intro fuel
  induction fuel with
  | zero => exact fun b r c => sameDots_refl _
  | succ n ih =>
    intro b r c
    show sameDots ((btBoard (backtrack (n + 1) b)) r c) (b r c)
    unfold backtrack
    split
    · exact sameDots_refl _
    · rcases hsel : select_variable b with _ | ⟨i, j⟩
      · exact sameDots_refl _
      · dsimp only
        exact tryVals_dots n (backtrack_failed n) ih _ b i j
          (select_variable_value_zero hsel) r c

theorem fcPrunePos_false (v : Nat) (L : List Pos) : ∀ (b b1 : Board),
    fcPrunePos b v L = (false, b1) →
    ∃ p ∈ L, (b1 p.1 p.2).assigned = false ∧ (b1 p.1 p.2).remaining_value_count = 0 := by
  induction L with
  | nil =>
    intro b b1 h
    simp [fcPrunePos] at h
  | cons p rest ih =>
    intro b b1 h
    rw [show fcPrunePos b v (p :: rest) =
      (if (b p.1 p.2).assigned then fcPrunePos b v rest
       else
        if ((pruneValue b p v) p.1 p.2).remaining_value_count = 0 then (false, pruneValue b p v)
        else fcPrunePos (pruneValue b p v) v rest) from rfl] at h
    split at h
    · rcases ih b b1 h with ⟨q, hq, hprop⟩
      exact ⟨q, List.mem_cons_of_mem p hq, hprop⟩
    · rename_i hna
      split at h
      · rename_i hz
        have hb1 : b1 = pruneValue b p v := (Prod.mk.injEq _ _ _ _ ▸ h).2.symm
        subst hb1
        refine ⟨p, List.mem_cons_self p rest, ?_, hz⟩
        rw [sameShape_assigned (pruneValue_shape b p v p.1 p.2)]
        exact Bool.not_eq_true _ ▸ (by simpa using hna)
      · rcases ih _ b1 h with ⟨q, hq, hprop⟩
        exact ⟨q, List.mem_cons_of_mem p hq, hprop⟩

theorem fcDot_false (b : Board) (p : Pos) (dt v : Nat) (b1 : Board)
    (h : fcDot b p dt v = (false, b1)) :
    (b1 p.1 p.2).assigned = false ∧ (b1 p.1 p.2).remaining_value_count = 0 := by
  unfold fcDot at h
  split at h
  · rename_i hg
    dsimp only at h
    split at h
    · rename_i hz
      have hb1 : b1 = updCell b p.1 p.2
          (fun c => { c with domain := pruneToRemain (dot_remains dt v) 0 c.domain }) :=
        (Prod.mk.injEq _ _ _ _ ▸ h).2.symm
      subst hb1
      refine ⟨?_, hz⟩
      rw [sameShape_assigned (updCell_domain_shape b p.1 p.2 _ p.1 p.2)]
      exact hg.2
    · exact absurd (congrArg Prod.fst h) (by simp)
  · exact absurd (congrArg Prod.fst h) (by simp)

theorem forward_check_false (b : Board) (i j : Idx)
    (h : (forward_check b i j).1 = false) :
    ∃ p : Pos, ((forward_check b i j).2.2 p.1 p.2).assigned = false ∧
      ((forward_check b i j).2.2 p.1 p.2).remaining_value_count = 0 := by
  unfold forward_check at h ⊢
  dsimp only at h ⊢
  rcases h1 : fcPrunePos b (b i j).value (posNeighbors i j) with ⟨f1, b1⟩
  cases f1 with
  | false =>
    rcases fcPrunePos_false (b i j).value (posNeighbors i j) b b1 h1 with ⟨p, _, hprop⟩
    exact ⟨p, hprop⟩
  | true =>
  dsimp only at h ⊢
  rcases h2 : fcDot b1 (i - 1, j) (b1 i j).up (b i j).value with ⟨f2, b2⟩
  cases f2 with
  | false => exact ⟨(i - 1, j), fcDot_false b1 (i - 1, j) (b1 i j).up (b i j).value b2 h2⟩
  | true =>
  dsimp only at h ⊢
  rcases h3 : fcDot b2 (i + 1, j) (b2 i j).down (b i j).value with ⟨f3, b3⟩
  cases f3 with
  | false => exact ⟨(i + 1, j), fcDot_false b2 (i + 1, j) (b2 i j).down (b i j).value b3 h3⟩
  | true =>
  dsimp only at h ⊢
  rcases h4 : fcDot b3 (i, j - 1) (b3 i j).left (b i j).value with ⟨f4, b4⟩
  cases f4 with
  | false => exact ⟨(i, j - 1), fcDot_false b3 (i, j - 1) (b3 i j).left (b i j).value b4 h4⟩
  | true =>
  dsimp only at h ⊢
  rcases h5 : fcDot b4 (i, j + 1) (b4 i j).right (b i j).value with ⟨f5, b5⟩
  cases f5 with
  | false => exact ⟨(i, j + 1), fcDot_false b4 (i, j + 1) (b4 i j).right (b i j).value b5 h5⟩
  | true =>
    rw [h1] at h
    dsimp only at h
    rw [h2] at h
    dsimp only at h
    rw [h3] at h
    dsimp only at h
    rw [h4] at h
    dsimp only at h
    rw [h5] at h
    simp at h

theorem pairwise_allPositions : allPositions.Pairwise (fun p q => rmPos p < rmPos q) := by
  unfold allPositions
  rw [List.flatMap_def]
  rw [List.pairwise_flatten]
  constructor
  · intro l hl
    rcases List.mem_map.mp hl with ⟨i, _, hi⟩
    rw [← hi, List.pairwise_map]
    refine List.Pairwise.imp ?_ (List.pairwise_lt_finRange 9)
    intro a b hab
    unfold rmPos
    dsimp only
    have := Fin.lt_iff_val_lt_val.mp hab
    omega
  · rw [List.pairwise_map]
    refine List.Pairwise.imp ?_ (List.pairwise_lt_finRange 9)
    intro i1 i2 h12 x hx y hy
    rcases List.mem_map.mp hx with ⟨a, _, ha⟩
    rcases List.mem_map.mp hy with ⟨c, _, hc⟩
    rw [← ha, ← hc]
    unfold rmPos
    dsimp only
    have h1 := Fin.lt_iff_val_lt_val.mp h12
    have h2 := a.isLt
    have h3 := c.isLt
    omega

theorem mrvFold_char (b : Board) : ∀ (L seen : List Pos) (s : Option Nat × List Pos),
    (s.1 = none → s.2 = [] ∧ ∀ p ∈ seen, (b p.1 p.2).assigned = true) →
    (∀ m, s.1 = some m →
      s.2 = seen.filter (fun p => !(b p.1 p.2).assigned &&
        ((b p.1 p.2).remaining_value_count == m)) ∧
      (∃ p ∈ seen, (b p.1 p.2).assigned = false ∧ (b p.1 p.2).remaining_value_count = m) ∧
      (∀ p ∈ seen, (b p.1 p.2).assigned = false → m ≤ (b p.1 p.2).remaining_value_count)) →
    ((L.foldl (mrvStep b) s).1 = none →
      (L.foldl (mrvStep b) s).2 = [] ∧ ∀ p ∈ seen ++ L, (b p.1 p.2).assigned = true) ∧
    (∀ m, (L.foldl (mrvStep b) s).1 = some m →
      (L.foldl (mrvStep b) s).2 = (seen ++ L).filter (fun p => !(b p.1 p.2).assigned &&
        ((b p.1 p.2).remaining_value_count == m)) ∧
      (∃ p ∈ seen ++ L, (b p.1 p.2).assigned = false ∧ (b p.1 p.2).remaining_value_count = m) ∧
      (∀ p ∈ seen ++ L, (b p.1 p.2).assigned = false →
        m ≤ (b p.1 p.2).remaining_value_count)) := by
  intro L
  induction L with
  | nil =>
    intro seen s hnone hsome
    rw [List.append_nil]
    exact ⟨hnone, hsome⟩
  | cons q rest ih =>
    intro seen s hnone hsome
    rw [List.foldl_cons, List.append_cons]
    by_cases hq : (b q.1 q.2).assigned = true
    · have hstep : mrvStep b s q = s := by
        unfold mrvStep
        rw [if_pos hq]
      rw [hstep]
      refine ih (seen ++ [q]) s ?_ ?_
      · intro hz
        obtain ⟨h1, h2⟩ := hnone hz
        refine ⟨h1, ?_⟩
        intro p hp
        rcases List.mem_append.mp hp with hp | hp
        · exact h2 p hp
        · simp only [List.mem_singleton] at hp
          subst hp
          exact hq
      · intro m hz
        obtain ⟨h1, h2, h3⟩ := hsome m hz
        refine ⟨?_, ?_, ?_⟩
        · rw [List.filter_append, show List.filter (fun p => !(b p.1 p.2).assigned &&
            ((b p.1 p.2).remaining_value_count == m)) [q] = [] by simp [hq],
            List.append_nil]
          exact h1
        · rcases h2 with ⟨p, hp, hprop⟩
          exact ⟨p, List.mem_append.mpr (Or.inl hp), hprop⟩
        · intro p hp hpa
          rcases List.mem_append.mp hp with hp | hp
          · exact h3 p hp hpa
          · simp only [List.mem_singleton] at hp
            subst hp
            rw [hq] at hpa
            exact Bool.noConfusion hpa
    · have hqf : (b q.1 q.2).assigned = false := by
        cases hx : (b q.1 q.2).assigned
        · rfl
        · exact absurd hx hq
      rcases hs1 : s.1 with _ | m0
      · -- s.1 = none: reset to (some rvc, [q])
        have hstep : mrvStep b s q = (some (b q.1 q.2).remaining_value_count, [q]) := by
          unfold mrvStep
          rw [if_neg hq]
          dsimp only
          rw [hs1]
        rw [hstep]
        obtain ⟨hs2, hall⟩ := hnone hs1
        refine ih (seen ++ [q]) _ ?_ ?_
        · intro hz
          exact Option.noConfusion hz
        · intro m hz
          simp only [Option.some.injEq] at hz
          subst hz
          refine ⟨?_, ⟨q, List.mem_append.mpr (Or.inr (List.mem_singleton.mpr rfl)),
            hqf, rfl⟩, ?_⟩
          · rw [List.filter_append, show List.filter (fun p => !(b p.1 p.2).assigned &&
              ((b p.1 p.2).remaining_value_count == (b q.1 q.2).remaining_value_count))
              seen = [] by
                rw [List.filter_eq_nil_iff]
                intro p hp
                rw [hall p hp]
                simp]
            simp [hqf]
          · intro p hp hpa
            rcases List.mem_append.mp hp with hp | hp
            · rw [hall p hp] at hpa
              exact Bool.noConfusion hpa
            · simp only [List.mem_singleton] at hp
              subst hp
              exact Nat.le_refl _
      · obtain ⟨hs2, hex, hmin⟩ := hsome m0 hs1
        by_cases hlt : m0 < (b q.1 q.2).remaining_value_count
        · -- strictly worse: state unchanged
          have hstep : mrvStep b s q = s := by
            unfold mrvStep
            rw [if_neg hq]
            dsimp only
            rw [hs1]
            dsimp only
            rw [if_pos hlt]
          rw [hstep]
          refine ih (seen ++ [q]) s ?_ ?_
          · intro hz
            rw [hs1] at hz
            exact Option.noConfusion hz
          · intro m hz
            rw [hs1] at hz
            simp only [Option.some.injEq] at hz
            subst hz
            refine ⟨?_, ?_, ?_⟩
            · rw [List.filter_append, show List.filter (fun p => !(b p.1 p.2).assigned &&
                ((b p.1 p.2).remaining_value_count == m0)) [q] = [] by
                  simp only [List.filter_cons, List.filter_nil, hqf, Bool.not_false,
                    Bool.true_and, beq_iff_eq]
                  rw [if_neg (by omega)], List.append_nil]
              exact hs2
            · rcases hex with ⟨p, hp, hprop⟩
              exact ⟨p, List.mem_append.mpr (Or.inl hp), hprop⟩
            · intro p hp hpa
              rcases List.mem_append.mp hp with hp | hp
              · exact hmin p hp hpa
              · simp only [List.mem_singleton] at hp
                subst hp
                omega
        · by_cases heq2 : (b q.1 q.2).remaining_value_count = m0
          · -- tie: append q
            have hstep : mrvStep b s q = (some m0, s.2 ++ [q]) := by
              unfold mrvStep
              rw [if_neg hq]
              dsimp only
              rw [hs1]
              dsimp only
              rw [if_neg hlt, if_pos heq2]
            rw [hstep]
            refine ih (seen ++ [q]) _ ?_ ?_
            · intro hz
              exact Option.noConfusion hz
            · intro m hz
              simp only [Option.some.injEq] at hz
              subst hz
              refine ⟨?_, ?_, ?_⟩
              · rw [List.filter_append, show List.filter (fun p => !(b p.1 p.2).assigned &&
                  ((b p.1 p.2).remaining_value_count == m0)) [q] = [q] by
                    simp [hqf, heq2], hs2]
              · rcases hex with ⟨p, hp, hprop⟩
                exact ⟨p, List.mem_append.mpr (Or.inl hp), hprop⟩
              · intro p hp hpa
                rcases List.mem_append.mp hp with hp | hp
                · exact hmin p hp hpa
                · simp only [List.mem_singleton] at hp
                  subst hp
                  omega
          · -- strictly better: reset
            have hstep : mrvStep b s q = (some (b q.1 q.2).remaining_value_count, [q]) := by
              unfold mrvStep
              rw [if_neg hq]
              dsimp only
              rw [hs1]
              dsimp only
              rw [if_neg hlt, if_neg heq2]
            rw [hstep]
            refine ih (seen ++ [q]) _ ?_ ?_
            · intro hz
              exact Option.noConfusion hz
            · intro m hz
              simp only [Option.some.injEq] at hz
              subst hz
              refine ⟨?_, ⟨q, List.mem_append.mpr (Or.inr (List.mem_singleton.mpr rfl)),
                hqf, rfl⟩, ?_⟩
              · rw [List.filter_append, show List.filter (fun p => !(b p.1 p.2).assigned &&
                  ((b p.1 p.2).remaining_value_count == (b q.1 q.2).remaining_value_count))
                  seen = [] by
                    rw [List.filter_eq_nil_iff]
                    intro p hp
                    by_cases hpa : (b p.1 p.2).assigned = true
                    · simp [hpa]
                    · have hpf : (b p.1 p.2).assigned = false := by
                        cases hx : (b p.1 p.2).assigned
                        · rfl
                        · exact absurd hx hpa
                      have := hmin p hp hpf
                      simp only [hpf, Bool.not_false, Bool.true_and, beq_iff_eq,
                        Bool.and_eq_true, not_and]
                      intro hcon
                      omega]
                simp [hqf]
              · intro p hp hpa
                rcases List.mem_append.mp hp with hp | hp
                · have := hmin p hp hpa
                  omega
                · simp only [List.mem_singleton] at hp
                  subst hp
                  exact Nat.le_refl _

theorem degFold_char (b : Board) : ∀ (L Mseen : List Pos) (s : Option (Pos × Nat)),
    (s = none → Mseen = []) →
    (∀ q d, s = some (q, d) → d = unassigned_neighbors_count b q.1 q.2 ∧
      ∃ L1 L2, Mseen = L1 ++ q :: L2 ∧
        (∀ r ∈ L1, unassigned_neighbors_count b r.1 r.2 < d) ∧
        (∀ r ∈ L2, unassigned_neighbors_count b r.1 r.2 ≤ d)) →
    ((L.foldl (degStep b) s = none → Mseen ++ L = []) ∧
     (∀ q d, L.foldl (degStep b) s = some (q, d) →
       d = unassigned_neighbors_count b q.1 q.2 ∧
       ∃ L1 L2, Mseen ++ L = L1 ++ q :: L2 ∧
         (∀ r ∈ L1, unassigned_neighbors_count b r.1 r.2 < d) ∧
         (∀ r ∈ L2, unassigned_neighbors_count b r.1 r.2 ≤ d))) := by
  intro L
  induction L with
  | nil =>
    intro Mseen s hn hs
    rw [List.append_nil]
    exact ⟨hn, hs⟩
  | cons p2 rest ih =>
    intro Mseen s hn hs
    rw [List.foldl_cons, List.append_cons]
    rcases s with _ | ⟨⟨q, d⟩⟩
    · have hM : Mseen = [] := hn rfl
      subst hM
      have hstep : degStep b none p2 = some (p2, unassigned_neighbors_count b p2.1 p2.2) := rfl
      rw [hstep]
      refine ih ([] ++ [p2]) _ (fun hx => Option.noConfusion hx) ?_
      intro q2 d2 hx
      simp only [Option.some.injEq, Prod.mk.injEq] at hx
      obtain ⟨hq2, hd2⟩ := hx
      subst hq2
      subst hd2
      exact ⟨rfl, [], [], rfl, fun r hr => absurd hr (List.not_mem_nil r),
        fun r hr => absurd hr (List.not_mem_nil r)⟩
    · obtain ⟨hd, L1, L2, hdecomp, hL1, hL2⟩ := hs q d rfl
      by_cases hlt : d < unassigned_neighbors_count b p2.1 p2.2
      · have hstep : degStep b (some (q, d)) p2 =
            some (p2, unassigned_neighbors_count b p2.1 p2.2) := by
          unfold degStep
          dsimp only
          rw [if_pos hlt]
        rw [hstep]
        refine ih (Mseen ++ [p2]) _ (fun hx => Option.noConfusion hx) ?_
        intro q2 d2 hx
        simp only [Option.some.injEq, Prod.mk.injEq] at hx
        obtain ⟨hq2, hd2⟩ := hx
        subst hq2
        subst hd2
        refine ⟨rfl, Mseen, [], rfl, ?_,
          fun r hr => absurd hr (List.not_mem_nil r)⟩
        intro r hr
        rw [hdecomp] at hr
        rcases List.mem_append.mp hr with hr | hr
        · exact Nat.lt_trans (hL1 r hr) hlt
        · rcases List.mem_cons.mp hr with hr | hr
          · subst hr
            rw [← hd]
            exact hlt
          · exact Nat.lt_of_le_of_lt (hL2 r hr) hlt
      · have hstep : degStep b (some (q, d)) p2 = some (q, d) := by
          unfold degStep
          dsimp only
          rw [if_neg hlt]
        rw [hstep]
        refine ih (Mseen ++ [p2]) _ (fun hx => Option.noConfusion hx) ?_
        intro q2 d2 hx
        simp only [Option.some.injEq, Prod.mk.injEq] at hx
        obtain ⟨hq2, hd2⟩ := hx
        subst hq2
        subst hd2
        refine ⟨hd, L1, L2 ++ [p2], ?_, hL1, ?_⟩
        · rw [hdecomp]
          simp [List.append_assoc]
        · intro r hr
          rcases List.mem_append.mp hr with hr | hr
          · exact hL2 r hr
          · simp only [List.mem_singleton] at hr
            subst hr
            omega

/-- C5: for every board with at least one unassigned cell, `select_variable`
returns an unassigned cell of minimal remaining-value count; among those, one
of maximal unassigned-neighbor degree; and among remaining ties, the first in
row-major scan order. -/
theorem C5_select_variable_heuristic (b : Board) (h : unassignedList b ≠ []) :
    ∃ p : Pos, select_variable b = some p ∧ p ∈ unassignedList b ∧
      (∀ q ∈ unassignedList b,
        (b p.1 p.2).remaining_value_count ≤ (b q.1 q.2).remaining_value_count) ∧
      (∀ q ∈ unassignedList b,
        (b q.1 q.2).remaining_value_count = (b p.1 p.2).remaining_value_count →
        unassigned_neighbors_count b q.1 q.2 ≤ unassigned_neighbors_count b p.1 p.2) ∧
      (∀ q ∈ unassignedList b,
        (b q.1 q.2).remaining_value_count = (b p.1 p.2).remaining_value_count →
        unassigned_neighbors_count b q.1 q.2 = unassigned_neighbors_count b p.1 p.2 →
        rmPos p ≤ rmPos q) := by
  obtain ⟨u, hu⟩ := List.exists_mem_of_ne_nil _ h
  have hu2 := List.mem_filter.mp hu
  have hmrv := mrvFold_char b allPositions [] (none, [])
    (fun _ => ⟨rfl, fun p hp => absurd hp (List.not_mem_nil p)⟩)
    (fun m hm => Option.noConfusion hm)
  rw [List.nil_append] at hmrv
  rcases hF : (allPositions.foldl (mrvStep b) (none, [])).1 with _ | m
  · obtain ⟨_, hall⟩ := hmrv.1 hF
    rw [hall u hu2.1] at hu2
    exact absurd hu2.2 (by simp)
  · obtain ⟨hM, hex, hmin⟩ := hmrv.2 m hF
    have hdeg := degFold_char b ((allPositions.foldl (mrvStep b) (none, [])).2) []
      none (fun _ => rfl) (fun q d hq => Option.noConfusion hq)
    rw [List.nil_append] at hdeg
    rcases hG : ((allPositions.foldl (mrvStep b) (none, [])).2).foldl (degStep b) none with
      _ | ⟨q, d⟩
    · exfalso
      rcases hex with ⟨w, hw, hwa, hwr⟩
      have hwM : w ∈ (allPositions.foldl (mrvStep b) (none, [])).2 := by
        rw [hM]
        refine List.mem_filter.mpr ⟨hw, ?_⟩
        simp [hwa, hwr]
      rw [hdeg.1 hG] at hwM
      exact absurd hwM (List.not_mem_nil w)
    · obtain ⟨hd, L1, L2, hdecomp, hL1, hL2⟩ := hdeg.2 q d hG
      have hqM : q ∈ (allPositions.foldl (mrvStep b) (none, [])).2 := by
        rw [hdecomp]
        exact List.mem_append.mpr (Or.inr (List.mem_cons_self q L2))
      have hqP : q ∈ allPositions ∧ ((b q.1 q.2).assigned = false ∧
          (b q.1 q.2).remaining_value_count = m) := by
        rw [hM] at hqM
        have := List.mem_filter.mp hqM
        refine ⟨this.1, ?_⟩
        have hb := this.2
        simp only [Bool.and_eq_true, Bool.not_eq_true', beq_iff_eq] at hb
        exact hb
      have hsel : select_variable b = some q := by
        show Option.map Prod.fst
          (((allPositions.foldl (mrvStep b) (none, [])).2).foldl (degStep b) none) = some q
        rw [hG]
        rfl
      have hMpair : ((allPositions.foldl (mrvStep b) (none, [])).2).Pairwise
          (fun p q => rmPos p < rmPos q) := by
        rw [hM]
        exact List.Pairwise.filter _ pairwise_allPositions
      refine ⟨q, hsel, ?_, ?_, ?_, ?_⟩
      · exact List.mem_filter.mpr ⟨hqP.1, by simp [hqP.2.1]⟩
      · intro x hx
        have hx2 := List.mem_filter.mp hx
        rw [hqP.2.2]
        exact hmin x hx2.1 (by simpa using hx2.2)
      · intro x hx hrx
        have hx2 := List.mem_filter.mp hx
        have hxM : x ∈ (allPositions.foldl (mrvStep b) (none, [])).2 := by
          rw [hM]
          refine List.mem_filter.mpr ⟨hx2.1, ?_⟩
          have : (b x.1 x.2).assigned = false := by simpa using hx2.2
          rw [hrx, hqP.2.2]
          simp [this]
        rw [hdecomp] at hxM
        rcases List.mem_append.mp hxM with hxm | hxm
        · exact Nat.le_of_lt (hd ▸ hL1 x hxm)
        · rcases List.mem_cons.mp hxm with hxm | hxm
          · subst hxm
            exact Nat.le_refl _
          · exact hd ▸ hL2 x hxm
      · intro x hx hrx hdx
        have hx2 := List.mem_filter.mp hx
        have hxM : x ∈ (allPositions.foldl (mrvStep b) (none, [])).2 := by
          rw [hM]
          refine List.mem_filter.mpr ⟨hx2.1, ?_⟩
          have : (b x.1 x.2).assigned = false := by simpa using hx2.2
          rw [hrx, hqP.2.2]
          simp [this]
        rw [hdecomp] at hxM
        rcases List.mem_append.mp hxM with hxm | hxm
        · exfalso
          have := hL1 x hxm
          rw [hdx, hd] at this
          exact Nat.lt_irrefl _ this
        · rcases List.mem_cons.mp hxm with hxm | hxm
          · subst hxm
            exact Nat.le_refl _
          · rw [hdecomp] at hMpair
            have hpair2 := (List.pairwise_append.mp hMpair).2.1
            have := (List.pairwise_cons.mp hpair2).1 x hxm
            exact Nat.le_of_lt this

theorem tryVals_cons (bt : Board → BtResult) (b : Board) (i j : Idx) (v : Nat)
    (rest : List Nat) :
    tryVals bt b i j (v :: rest) =
      if (b i j).domain.getD (v - 1) 0 = 0 then tryVals bt b i j rest
      else
        match forward_check (setValue b i j v) i j with
        | (consistent, original, b2) =>
          match (if consistent then bt b2 else BtResult.failed b2) with
          | .found bs => .found bs
          | .failed b3 => tryVals bt (setValue (remove_inferences b3 original) i j 0) i j rest :=
  rfl

theorem tryVals_filter (fuel : Nat) : ∀ (vals : List Nat) (b : Board) (i j : Idx),
    (b i j).value = 0 →
    tryVals (backtrack fuel) b i j vals =
      tryVals (backtrack fuel) b i j
        (vals.filter (fun v => (b i j).domain.getD (v - 1) 0 != 0)) := by
  intro vals
  induction vals with
  | nil => intro b i j _; rfl
  | cons v rest ih =>
    intro b i j hun
    by_cases hg : (b i j).domain.getD (v - 1) 0 = 0
    · rw [tryVals_cons, if_pos hg, List.filter_cons,
        if_neg (by simp only [bne_iff_ne, ne_eq, Decidable.not_not]; exact hg)]
      exact ih b i j hun
    · rw [List.filter_cons, if_pos (by simp only [bne_iff_ne, ne_eq]; exact hg)]
      rw [tryVals_cons, tryVals_cons, if_neg hg, if_neg hg]
      rcases hfc : forward_check (setValue b i j v) i j with ⟨consistent, original, b2⟩
      dsimp only
      rcases hres : (if consistent = true then backtrack fuel b2 else BtResult.failed b2) with
        bs | b3
      · rfl
      · dsimp only
        have hb3 : b3 = b2 := by
          cases consistent
          · rw [if_neg (by simp)] at hres
            exact (BtResult.failed.injEq _ _ ▸ hres).symm
          · rw [if_pos rfl] at hres
            exact backtrack_failed fuel b2 b3 hres
        rw [hb3]
        have horig : original = (forward_check (setValue b i j v) i j).2.1 := by rw [hfc]
        have hb2eq : b2 = (forward_check (setValue b i j v) i j).2.2 := by rw [hfc]
        rw [horig, hb2eq, assign_fc_undo b i j v hun]
        exact ih b i j hun

/-- C3: for every neighbor value v in 1..9, `dot_remains` computes exactly the
specified candidate sets: white dot gives the set of u in [1,9] adjacent to v;
black dot gives the specified halving/doubling sets per parity and size of v. -/
theorem C3_dot_remains_sets (v : Nat) (h1 : 1 ≤ v) (h9 : v ≤ 9) :
    ((dot_remains 1 v).toFinset =
      (Finset.Icc 1 9).filter (fun u => u + 1 = v ∨ u = v + 1)) ∧
    ((dot_remains 2 v).toFinset =
      if v % 2 = 0 ∧ v ≤ 4 then {v / 2, v * 2}
      else if v % 2 = 0 ∧ 4 < v then {v / 2}
      else if v % 2 = 1 ∧ v ≤ 3 then {v * 2}
      else (∅ : Finset Nat)) := by
  interval_cases v <;> exact ⟨by decide, by decide⟩

theorem C3_witness :
    (1 ≤ 4 ∧ 4 ≤ 9) ∧
    ((dot_remains 1 4).toFinset =
      (Finset.Icc 1 9).filter (fun u => u + 1 = 4 ∨ u = 4 + 1)) ∧
    ((dot_remains 2 4).toFinset =
      if 4 % 2 = 0 ∧ 4 ≤ 4 then {4 / 2, 4 * 2}
      else if 4 % 2 = 0 ∧ 4 < 4 then {4 / 2}
      else if 4 % 2 = 1 ∧ 4 ≤ 3 then {4 * 2}
      else (∅ : Finset Nat)) :=
  ⟨⟨by decide, by decide⟩, C3_dot_remains_sets 4 (by decide) (by decide)⟩

/-- C4: rollback is exact: for every board, every unassigned cell and every
digit v, after setting the cell's value to v, running `forward_check`
(whatever flag it reports), applying `remove_inferences` to the returned
record and resetting the cell to unassigned, every cell's domain equals its
domain before the assignment. -/
theorem C4_rollback_exact (b : Board) (i j : Idx) (v : Nat)
    (hun : (b i j).value = 0) (hv1 : 1 ≤ v) (hv9 : v ≤ 9) :
    ∀ r c : Idx,
      ((setValue (remove_inferences ((forward_check (setValue b i j v) i j).2.2)
        ((forward_check (setValue b i j v) i j).2.1)) i j 0) r c).domain =
      (b r c).domain := by
  intro r c
  rw [assign_fc_undo b i j v hun]

theorem C4_witness :
    ((emptyBoard 0 0).value = 0 ∧ 1 ≤ 5 ∧ 5 ≤ 9) ∧
    (∀ r c : Idx,
      ((setValue (remove_inferences ((forward_check (setValue emptyBoard 0 0 5) 0 0).2.2)
        ((forward_check (setValue emptyBoard 0 0 5) 0 0).2.1)) 0 0 0) r c).domain =
      (emptyBoard r c).domain) :=
  ⟨⟨rfl, by decide, by decide⟩, C4_rollback_exact emptyBoard 0 0 5 rfl (by decide) (by decide)⟩

/-- C6: `forward_check` returns a consistency flag together with the change
record (always the snapshot of the unassigned row/column/box neighbors, on
the failure path as well, so the caller can undo), and when the flag is false
some unassigned cell of the returned board has an empty domain. -/
theorem C6_fc_failure_returns_record (b : Board) (i j : Idx) :
    (forward_check b i j).2.1 = collectOriginal b i j ∧
    ((forward_check b i j).1 = false →
      ∃ p : Pos, ((forward_check b i j).2.2 p.1 p.2).assigned = false ∧
        ((forward_check b i j).2.2 p.1 p.2).remaining_value_count = 0) :=
  ⟨(forward_check_spec b i j).1, forward_check_false b i j⟩

theorem C6_witness :
    (forward_check fcFailBoard 0 0).1 = false ∧
    (forward_check fcFailBoard 0 0).2.1 = collectOriginal fcFailBoard 0 0 ∧
    (∃ p : Pos, ((forward_check fcFailBoard 0 0).2.2 p.1 p.2).assigned = false ∧
      ((forward_check fcFailBoard 0 0).2.2 p.1 p.2).remaining_value_count = 0) := by
  have hf : (forward_check fcFailBoard 0 0).1 = false := by rfl
  exact ⟨hf, (C6_fc_failure_returns_record fcFailBoard 0 0).1,
    (C6_fc_failure_returns_record fcFailBoard 0 0).2 hf⟩

/-- C7: solving is deterministic: `backtracking_search` is a function of the
input board, so equal input boards produce equal results. -/
theorem C7_deterministic (b1 b2 : Board) (h : b1 = b2) :
    backtracking_search b1 = backtracking_search b2 :=
  congrArg backtracking_search h

theorem C7_witness :
    emptyBoard = emptyBoard ∧
    backtracking_search emptyBoard = backtracking_search emptyBoard :=
  ⟨rfl, C7_deterministic emptyBoard emptyBoard rfl⟩

/-- C8: in every recursive step (an incomplete board whose selected cell has
the standard 9-flag domain), `backtrack` runs its value loop exactly over the
candidates 1..9 in strictly increasing order, restricted to the values still
present in the selected cell's domain (pruned values are skipped). -/
theorem C8_values_increasing_in_domain (fuel : Nat) (b : Board) (i j : Idx)
    (hnc : assignment_complete b = false) (hsel : select_variable b = some (i, j))
    (hlen : (b i j).domain.length = 9) :
    backtrack (fuel + 1) b =
      tryVals (backtrack fuel) b i j
        (([1, 2, 3, 4, 5, 6, 7, 8, 9]).filter
          (fun v => (b i j).domain.getD (v - 1) 0 != 0)) ∧
    List.Pairwise (· < ·) [1, 2, 3, 4, 5, 6, 7, 8, 9] := by
  constructor
  · have h1 : backtrack (fuel + 1) b =
        tryVals (backtrack fuel) b i j ((List.range (b i j).domain.length).map (· + 1)) := by
      unfold backtrack
      rw [if_neg (by simp [hnc]), hsel]
    rw [h1, hlen, show (List.range 9).map (· + 1) = [1, 2, 3, 4, 5, 6, 7, 8, 9] from rfl]
    exact tryVals_filter fuel _ b i j (select_variable_value_zero hsel)
  · decide

theorem C8_witness :
    (assignment_complete oneOpenBoard = false ∧
      select_variable oneOpenBoard = some (8, 8) ∧
      (oneOpenBoard 8 8).domain.length = 9) ∧
    (backtrack 82 oneOpenBoard =
      tryVals (backtrack 81) oneOpenBoard 8 8
        (([1, 2, 3, 4, 5, 6, 7, 8, 9]).filter
          (fun v => (oneOpenBoard 8 8).domain.getD (v - 1) 0 != 0)) ∧
      List.Pairwise (· < ·) [1, 2, 3, 4, 5, 6, 7, 8, 9]) :=
  ⟨⟨by decide, by decide, by rfl⟩,
    C8_values_increasing_in_domain 81 oneOpenBoard 8 8 (by decide) (by decide) (by rfl)⟩

/-- C9: the dot-edge metadata (up, down, left, right) of every cell is left
unchanged by `forward_check`, by `remove_inferences`, and by the whole
recursive `backtrack` run, whichever way it ends (`select_variable` returns
only coordinates and cannot modify the board in this embedding). -/
theorem C9_dot_fields_immutable (b : Board) (i j : Idx) (orig : Record) (fuel : Nat)
    (r c : Idx) :
    sameDots (((forward_check b i j).2.2) r c) (b r c) ∧
    sameDots ((remove_inferences b orig) r c) (b r c) ∧
    sameDots ((btBoard (backtrack fuel b)) r c) (b r c) :=
  ⟨forward_check_dots b i j r c, remove_inferences_dots orig b r c,
    backtrack_dots fuel b r c⟩

/-- C10: failure is atomic: whenever `backtrack` returns the failure value,
the final state of the threaded board is exactly the board at entry: every
cell's value and domain are restored. -/
theorem C10_failure_restores_board (fuel : Nat) (b bfin : Board)
    (h : backtrack fuel b = .failed bfin) :
    ∀ r c : Idx, (bfin r c).value = (b r c).value ∧ (bfin r c).domain = (b r c).domain := by
  intro r c
  rw [backtrack_failed fuel b bfin h]
  exact ⟨rfl, rfl⟩

theorem C10_witness :
    backtrack 82 stuckBoard = BtResult.failed stuckBoard ∧
    (∀ r c : Idx, (stuckBoard r c).value = (stuckBoard r c).value ∧
      (stuckBoard r c).domain = (stuckBoard r c).domain) := by
  have hx : backtrack 82 stuckBoard = BtResult.failed stuckBoard := by rfl
  exact ⟨hx, C10_failure_restores_board 82 stuckBoard stuckBoard hx⟩

/-- C2: code behavior on a puzzle with contradictory given clues (the clue 2
at (0,0) duplicates the given 2 at (0,1) in row 0, cell (8,8) is open):
`backtracking_search` terminates but returns a completed board that still
contains the duplicated 2s in row 0, instead of the failure signal the
specification requires; neither `update_neighbors` nor `forward_check` ever
compares two already-assigned cells. -/
theorem C2_contradictory_clues_board_returned :
    (backtracking_search dupClueBoard).map
      (fun br => ((br 0 0).value, (br 0 1).value)) = some (2, 2) := by
  decide

theorem setValue_value (b : Board) (i j : Idx) (v : Nat) (r c : Idx) :
    ((setValue b i j v) r c).value = if r = i ∧ c = j then v else (b r c).value := by
  unfold setValue updCell
  split <;> rfl

theorem setValue_domain (b : Board) (i j : Idx) (v : Nat) (r c : Idx) :
    ((setValue b i j v) r c).domain = (b r c).domain := by
  unfold setValue updCell
  split <;> rfl

theorem rcb_symm {p q : Pos} (h : rcbConstrains p q) : rcbConstrains q p := by
  obtain ⟨hne, hor⟩ := h
  refine ⟨fun hx => hne hx.symm, ?_⟩
  rcases hor with h | h | ⟨h1, h2⟩
  · exact Or.inl h.symm
  · exact Or.inr (Or.inl h.symm)
  · exact Or.inr (Or.inr ⟨h1.symm, h2.symm⟩)

theorem dotOK_symm {dt a b : Nat} (h : dotOK dt a b) : dotOK dt b a := by
  unfold dotOK whiteOK blackOK at h ⊢
  split_ifs at h ⊢ <;> first | omega | trivial

theorem dot_remains_dotOK (dt v u : Nat) (hv : 1 ≤ v) (hu : u ∈ dot_remains dt v) :
    dotOK dt u v := by
  unfold dot_remains at hu
  unfold dotOK whiteOK blackOK
  split_ifs at hu ⊢ with h1 h2 h3 h4 h5 h6 <;>
    simp only [List.mem_cons, List.mem_singleton, List.not_mem_nil, or_false] at hu <;>
    first
      | omega
      | trivial
      | exact hu.elim

theorem getD_set_zero_imp (l : List Nat) (n k : Nat) (h : (l.set n 0).getD k 0 ≠ 0) :
    l.getD k 0 ≠ 0 := by
  by_cases hk : k = n
  · subst hk
    rw [getD_set_same] at h
    exact absurd rfl h
  · rwa [getD_set_other l n k 0 hk] at h

theorem domainHas_set_imp (c : Variable) (n d : Nat)
    (h : domainHas { c with domain := c.domain.set n 0 } d) : domainHas c d := by
  unfold domainHas at h ⊢
  exact getD_set_zero_imp c.domain n (d - 1) h

theorem domainHas_set_value : ∀ (c : Variable) (v : Nat),
    ¬ domainHas { c with domain := c.domain.set (v - 1) 0 } v := by
  intro c v h
  unfold domainHas at h
  dsimp only at h
  rw [getD_set_same] at h
  exact absurd rfl h

theorem domainHas_pruneToRemain (remain : List Nat) (c : Variable) (d : Nat)
    (h : domainHas { c with domain := pruneToRemain remain 0 c.domain } d) :
    domainHas c d ∧ (1 ≤ d → d ∈ remain) := by
  unfold domainHas at h ⊢
  dsimp only at h
  obtain ⟨h1, h2⟩ := pruneToRemain_getD remain 0 c.domain (d - 1) h
  refine ⟨h2, fun hd => ?_⟩
  rwa [show 0 + (d - 1) + 1 = d by omega] at h1

theorem pruneValue_shrink (b : Board) (p : Pos) (v : Nat) (r c : Idx) (d : Nat)
    (h : domainHas ((pruneValue b p v) r c) d) : domainHas (b r c) d := by
  unfold pruneValue updCell at h
  split at h
  · exact domainHas_set_imp (b r c) (v - 1) d h
  · exact h

theorem fcPrunePos_shrink (v : Nat) (L : List Pos) : ∀ (b : Board) (r c : Idx) (d : Nat),
    domainHas ((fcPrunePos b v L).2 r c) d → domainHas (b r c) d := by
  induction L with
  | nil => exact fun b r c d h => h
  | cons p rest ih =>
    intro b r c d h
    rw [show fcPrunePos b v (p :: rest) =
      (if (b p.1 p.2).assigned then fcPrunePos b v rest
       else
        if ((pruneValue b p v) p.1 p.2).remaining_value_count = 0 then (false, pruneValue b p v)
        else fcPrunePos (pruneValue b p v) v rest) from rfl] at h
    split at h
    · exact ih b r c d h
    · split at h
      · exact pruneValue_shrink b p v r c d h
      · exact pruneValue_shrink b p v r c d (ih _ r c d h)

theorem fcDot_shrink (b : Board) (p : Pos) (dt v : Nat) (r c : Idx) (d : Nat)
    (h : domainHas ((fcDot b p dt v).2 r c) d) : domainHas (b r c) d := by
  unfold fcDot at h
  split at h
  · dsimp only at h
    split at h <;>
    · dsimp only at h
      unfold updCell at h
      split at h
      · exact (domainHas_pruneToRemain (dot_remains dt v) (b r c) d h).1
      · exact h
  · exact h

theorem fcDot_target_remains (b : Board) (p : Pos) (dt v : Nat)
    (hg : dt ≠ 0 ∧ (b p.1 p.2).assigned = false) (d : Nat) (hd : 1 ≤ d)
    (h : domainHas ((fcDot b p dt v).2 p.1 p.2) d) : d ∈ dot_remains dt v := by
  rw [fcDot_target b p dt v hg] at h
  exact (domainHas_pruneToRemain (dot_remains dt v) (b p.1 p.2) d h).2 hd

theorem fcPrunePos_true_prunes (v : Nat) (L : List Pos) : ∀ (b b1 : Board),
    fcPrunePos b v L = (true, b1) → ∀ p ∈ L, (b p.1 p.2).assigned = false →
      ¬ domainHas (b1 p.1 p.2) v := by
  induction L with
  | nil => exact fun b b1 _ p hp => absurd hp (List.not_mem_nil p)
  | cons q rest ih =>
    intro b b1 h p hp hpa
    rw [show fcPrunePos b v (q :: rest) =
      (if (b q.1 q.2).assigned then fcPrunePos b v rest
       else
        if ((pruneValue b q v) q.1 q.2).remaining_value_count = 0 then (false, pruneValue b q v)
        else fcPrunePos (pruneValue b q v) v rest) from rfl] at h
    split at h
    · rename_i hqa
      rcases List.mem_cons.mp hp with hpq | hpr
      · subst hpq
        rw [hpa] at hqa
        exact absurd hqa Bool.noConfusion
      · exact ih b b1 h p hpr hpa
    · split at h
      · exact absurd (congrArg Prod.fst h) (by simp)
      · rcases List.mem_cons.mp hp with hpq | hpr
        · subst hpq
          intro hcon
          have hstep := fcPrunePos_shrink v rest (pruneValue b p v) p.1 p.2 v
          rw [h] at hstep
          have h2 := hstep hcon
          rw [pruneValue_same b p v] at h2
          exact domainHas_set_value (b p.1 p.2) v h2
        · refine ih (pruneValue b q v) b1 h p hpr ?_
          rw [sameShape_assigned (pruneValue_shape b q v p.1 p.2)]
          exact hpa

theorem forward_check_true (b : Board) (i j : Idx)
    (hflag : (forward_check b i j).1 = true) :
    (∀ r c d, domainHas ((forward_check b i j).2.2 r c) d → domainHas (b r c) d) ∧
    (∀ p ∈ posNeighbors i j, (b p.1 p.2).assigned = false →
      ¬ domainHas ((forward_check b i j).2.2 p.1 p.2) (b i j).value) ∧
    ((b i j).up ≠ 0 → (b (i - 1) j).assigned = false → ∀ d, 1 ≤ d →
      domainHas ((forward_check b i j).2.2 (i - 1) j) d →
      d ∈ dot_remains (b i j).up (b i j).value) ∧
    ((b i j).down ≠ 0 → (b (i + 1) j).assigned = false → ∀ d, 1 ≤ d →
      domainHas ((forward_check b i j).2.2 (i + 1) j) d →
      d ∈ dot_remains (b i j).down (b i j).value) ∧
    ((b i j).left ≠ 0 → (b i (j - 1)).assigned = false → ∀ d, 1 ≤ d →
      domainHas ((forward_check b i j).2.2 i (j - 1)) d →
      d ∈ dot_remains (b i j).left (b i j).value) ∧
    ((b i j).right ≠ 0 → (b i (j + 1)).assigned = false → ∀ d, 1 ≤ d →
      domainHas ((forward_check b i j).2.2 i (j + 1)) d →
      d ∈ dot_remains (b i j).right (b i j).value) := by
  unfold forward_check at hflag ⊢
  dsimp only at hflag ⊢
  rcases h1 : fcPrunePos b (b i j).value (posNeighbors i j) with ⟨f1, b1⟩
  rw [h1] at hflag
  have s1 : ∀ r c, sameShape (b1 r c) (b r c) := by
    intro r c
    have h := fcPrunePos_shape (b i j).value (posNeighbors i j) b r c
    rw [h1] at h
    exact h
  have k1 : ∀ r c d, domainHas (b1 r c) d → domainHas (b r c) d := by
    intro r c d h
    have h2 := fcPrunePos_shrink (b i j).value (posNeighbors i j) b r c d
    rw [h1] at h2
    exact h2 h
  cases f1 with
  | false => exact absurd hflag Bool.noConfusion
  | true =>
  dsimp only at hflag ⊢
  have hpr : ∀ p ∈ posNeighbors i j, (b p.1 p.2).assigned = false →
      ¬ domainHas (b1 p.1 p.2) (b i j).value :=
    fcPrunePos_true_prunes (b i j).value (posNeighbors i j) b b1 h1
  rcases h2 : fcDot b1 (i - 1, j) (b1 i j).up (b i j).value with ⟨f2, b2⟩
  rw [h2] at hflag
  have s2 : ∀ r c, sameShape (b2 r c) (b r c) := by
    intro r c
    have h := fcDot_shape b1 (i - 1, j) (b1 i j).up (b i j).value r c
    rw [h2] at h
    exact sameShape_trans h (s1 r c)
  have k2 : ∀ r c d, domainHas (b2 r c) d → domainHas (b1 r c) d := by
    intro r c d h
    have h3 := fcDot_shrink b1 (i - 1, j) (b1 i j).up (b i j).value r c d
    rw [h2] at h3
    exact h3 h
  have t2 : (b i j).up ≠ 0 → (b (i - 1) j).assigned = false → ∀ d, 1 ≤ d →
      domainHas (b2 (i - 1) j) d → d ∈ dot_remains (b i j).up (b i j).value := by
    intro hz ha d hd hdm
    have hg : (b1 i j).up ≠ 0 ∧ (b1 (i - 1, j).1 (i - 1, j).2).assigned = false := by
      refine ⟨by rw [(s1 i j).2.1]; exact hz, ?_⟩
      rw [sameShape_assigned (s1 (i - 1) j)]
      exact ha
    have h3 := fcDot_target_remains b1 (i - 1, j) (b1 i j).up (b i j).value hg d hd
    rw [h2] at h3
    rw [show (b1 i j).up = (b i j).up from (s1 i j).2.1] at h3
    exact h3 hdm
  cases f2 with
  | false => exact absurd hflag Bool.noConfusion
  | true =>
  dsimp only at hflag ⊢
  rcases h3 : fcDot b2 (i + 1, j) (b2 i j).down (b i j).value with ⟨f3, b3⟩
  rw [h3] at hflag
  have s3 : ∀ r c, sameShape (b3 r c) (b r c) := by
    intro r c
    have h := fcDot_shape b2 (i + 1, j) (b2 i j).down (b i j).value r c
    rw [h3] at h
    exact sameShape_trans h (s2 r c)
  have k3 : ∀ r c d, domainHas (b3 r c) d → domainHas (b2 r c) d := by
    intro r c d h
    have h4 := fcDot_shrink b2 (i + 1, j) (b2 i j).down (b i j).value r c d
    rw [h3] at h4
    exact h4 h
  have t3 : (b i j).down ≠ 0 → (b (i + 1) j).assigned = false → ∀ d, 1 ≤ d →
      domainHas (b3 (i + 1) j) d → d ∈ dot_remains (b i j).down (b i j).value := by
    intro hz ha d hd hdm
    have hg : (b2 i j).down ≠ 0 ∧ (b2 (i + 1, j).1 (i + 1, j).2).assigned = false := by
      refine ⟨by rw [(s2 i j).2.2.1]; exact hz, ?_⟩
      rw [sameShape_assigned (s2 (i + 1) j)]
      exact ha
    have h4 := fcDot_target_remains b2 (i + 1, j) (b2 i j).down (b i j).value hg d hd
    rw [h3] at h4
    rw [show (b2 i j).down = (b i j).down from (s2 i j).2.2.1] at h4
    exact h4 hdm
  cases f3 with
  | false => exact absurd hflag Bool.noConfusion
  | true =>
  dsimp only at hflag ⊢
  rcases h4 : fcDot b3 (i, j - 1) (b3 i j).left (b i j).value with ⟨f4, b4⟩
  rw [h4] at hflag
  have s4 : ∀ r c, sameShape (b4 r c) (b r c) := by
    intro r c
    have h := fcDot_shape b3 (i, j - 1) (b3 i j).left (b i j).value r c
    rw [h4] at h
    exact sameShape_trans h (s3 r c)
  have k4 : ∀ r c d, domainHas (b4 r c) d → domainHas (b3 r c) d := by
    intro r c d h
    have h5 := fcDot_shrink b3 (i, j - 1) (b3 i j).left (b i j).value r c d
    rw [h4] at h5
    exact h5 h
  have t4 : (b i j).left ≠ 0 → (b i (j - 1)).assigned = false → ∀ d, 1 ≤ d →
      domainHas (b4 i (j - 1)) d → d ∈ dot_remains (b i j).left (b i j).value := by
    intro hz ha d hd hdm
    have hg : (b3 i j).left ≠ 0 ∧ (b3 (i, j - 1).1 (i, j - 1).2).assigned = false := by
      refine ⟨by rw [(s3 i j).2.2.2.1]; exact hz, ?_⟩
      rw [sameShape_assigned (s3 i (j - 1))]
      exact ha
    have h5 := fcDot_target_remains b3 (i, j - 1) (b3 i j).left (b i j).value hg d hd
    rw [h4] at h5
    rw [show (b3 i j).left = (b i j).left from (s3 i j).2.2.2.1] at h5
    exact h5 hdm
  cases f4 with
  | false => exact absurd hflag Bool.noConfusion
  | true =>
  dsimp only at hflag ⊢
  rcases h5 : fcDot b4 (i, j + 1) (b4 i j).right (b i j).value with ⟨f5, b5⟩
  rw [h5] at hflag
  have k5 : ∀ r c d, domainHas (b5 r c) d → domainHas (b4 r c) d := by
    intro r c d h
    have h6 := fcDot_shrink b4 (i, j + 1) (b4 i j).right (b i j).value r c d
    rw [h5] at h6
    exact h6 h
  have t5 : (b i j).right ≠ 0 → (b i (j + 1)).assigned = false → ∀ d, 1 ≤ d →
      domainHas (b5 i (j + 1)) d → d ∈ dot_remains (b i j).right (b i j).value := by
    intro hz ha d hd hdm
    have hg : (b4 i j).right ≠ 0 ∧ (b4 (i, j + 1).1 (i, j + 1).2).assigned = false := by
      refine ⟨by rw [(s4 i j).2.2.2.2]; exact hz, ?_⟩
      rw [sameShape_assigned (s4 i (j + 1))]
      exact ha
    have h6 := fcDot_target_remains b4 (i, j + 1) (b4 i j).right (b i j).value hg d hd
    rw [h5] at h6
    rw [show (b4 i j).right = (b i j).right from (s4 i j).2.2.2.2] at h6
    exact h6 hdm
  cases f5 with
  | false => exact absurd hflag Bool.noConfusion
  | true =>
  dsimp only
  have kall : ∀ r c d, domainHas (b5 r c) d → domainHas (b r c) d :=
    fun r c d h => k1 r c d (k2 r c d (k3 r c d (k4 r c d (k5 r c d h))))
  refine ⟨kall, ?_, ?_, ?_, ?_, ?_⟩
  · intro p hp hpa hdm
    exact hpr p hp hpa (k2 p.1 p.2 _ (k3 p.1 p.2 _ (k4 p.1 p.2 _ (k5 p.1 p.2 _ hdm))))
  · intro hz ha d hd hdm
    exact t2 hz ha d hd (k3 _ _ _ (k4 _ _ _ (k5 _ _ _ hdm)))
  · intro hz ha d hd hdm
    exact t3 hz ha d hd (k4 _ _ _ (k5 _ _ _ hdm))
  · intro hz ha d hd hdm
    exact t4 hz ha d hd (k5 _ _ _ hdm)
  · exact t5

theorem pos_eq_pair {p : Pos} {i j : Idx} (h1 : p.1 = i) (h2 : p.2 = j) : p = (i, j) :=
  Prod.ext h1 h2

theorem InvA_after_assign (b : Board) (i j : Idx) (v : Nat)
    (hsym : symmetricDots b) (hA : InvA b) (hB : InvB b)
    (hun : (b i j).value = 0) (hv : 1 ≤ v) (hdom : domainHas (b i j) v) :
    InvA (setValue b i j v) := by
  obtain ⟨hA1, hAd, hAr, hAu, hAl⟩ := hA
  have hBp := hB i j hun v hv hdom
  refine ⟨?_, ?_, ?_, ?_, ?_⟩
  · intro p q hc hp hq
    rw [setValue_value] at hp hq
    rw [setValue_value, setValue_value]
    by_cases hcp : p.1 = i ∧ p.2 = j
    · rw [if_pos hcp] at hp ⊢
      by_cases hcq : q.1 = i ∧ q.2 = j
      · exact absurd (Prod.ext (hcp.1.trans hcq.1.symm) (hcp.2.trans hcq.2.symm)) hc.1
      · rw [if_neg hcq] at hq ⊢
        have hpq : p = (i, j) := pos_eq_pair hcp.1 hcp.2
        rw [hpq] at hc
        exact hBp.1 q hc hq
    · rw [if_neg hcp] at hp ⊢
      by_cases hcq : q.1 = i ∧ q.2 = j
      · rw [if_pos hcq] at hq ⊢
        have hqq : q = (i, j) := pos_eq_pair hcq.1 hcq.2
        rw [hqq] at hc
        exact (hBp.1 p (rcb_symm hc) hp).symm
      · rw [if_neg hcq] at hq ⊢
        exact hA1 p q hc hp hq
  · intro i2 j2 hdot hbound hval1 hval2
    rw [(setValue_dots b i j v i2 j2).2.1] at hdot
    rw [setValue_value] at hval1 hval2
    rw [(setValue_dots b i j v i2 j2).2.1, setValue_value, setValue_value]
    by_cases hc1 : i2 = i ∧ j2 = j
    · by_cases hc2 : i2 + 1 = i ∧ j2 = j
      · exact absurd (hc2.1.trans hc1.1.symm) (fin9_add_one_ne i2)
      · rw [if_pos hc1] at hval1 ⊢
        rw [if_neg hc2] at hval2 ⊢
        obtain ⟨hi2, hj2⟩ := hc1
        rw [hi2, hj2] at hdot hval2 ⊢
        rw [hi2] at hbound
        exact hBp.2.1 hdot hbound hval2
    · by_cases hc2 : i2 + 1 = i ∧ j2 = j
      · rw [if_neg hc1] at hval1 ⊢
        rw [if_pos hc2] at hval2 ⊢
        obtain ⟨hieq, hj2⟩ := hc2
        rw [hj2] at hdot hval1 ⊢
        have hddu : (b i2 j).down = (b i j).up := by
          rw [hsym.1 i2 j hbound, hieq]
        have hipos : 0 < i.val := by
          rw [← hieq, fin9_add_val i2 hbound]
          omega
        have hisub : i - 1 = i2 := fin9_add_then_sub i2 i hieq
        have hup : (b i j).up ≠ 0 := by rw [← hddu]; exact hdot
        have hres := hBp.2.2.2.1 hup hipos (by rw [hisub]; exact hval1)
        rw [hisub] at hres
        rw [hddu]
        exact dotOK_symm hres
      · rw [if_neg hc1] at hval1 ⊢
        rw [if_neg hc2] at hval2 ⊢
        exact hAd i2 j2 hdot hbound hval1 hval2
  · intro i2 j2 hdot hbound hval1 hval2
    rw [(setValue_dots b i j v i2 j2).2.2.2] at hdot
    rw [setValue_value] at hval1 hval2
    rw [(setValue_dots b i j v i2 j2).2.2.2, setValue_value, setValue_value]
    by_cases hc1 : i2 = i ∧ j2 = j
    · by_cases hc2 : i2 = i ∧ j2 + 1 = j
      · exact absurd (hc2.2.trans hc1.2.symm) (fin9_add_one_ne j2)
      · rw [if_pos hc1] at hval1 ⊢
        rw [if_neg hc2] at hval2 ⊢
        obtain ⟨hi2, hj2⟩ := hc1
        rw [hi2, hj2] at hdot hval2 ⊢
        rw [hj2] at hbound
        exact hBp.2.2.1 hdot hbound hval2
    · by_cases hc2 : i2 = i ∧ j2 + 1 = j
      · rw [if_neg hc1] at hval1 ⊢
        rw [if_pos hc2] at hval2 ⊢
        obtain ⟨hi2, hjeq⟩ := hc2
        rw [hi2] at hdot hval1 ⊢
        have hddu : (b i j2).right = (b i j).left := by
          rw [hsym.2.2.1 i j2 hbound, hjeq]
        have hjpos : 0 < j.val := by
          rw [← hjeq, fin9_add_val j2 hbound]
          omega
        have hjsub : j - 1 = j2 := fin9_add_then_sub j2 j hjeq
        have hleft : (b i j).left ≠ 0 := by rw [← hddu]; exact hdot
        have hres := hBp.2.2.2.2 hleft hjpos (by rw [hjsub]; exact hval1)
        rw [hjsub] at hres
        rw [hddu]
        exact dotOK_symm hres
      · rw [if_neg hc1] at hval1 ⊢
        rw [if_neg hc2] at hval2 ⊢
        exact hAr i2 j2 hdot hbound hval1 hval2
  · intro i2 j2 hdot hbound hval1 hval2
    rw [(setValue_dots b i j v i2 j2).1] at hdot
    rw [setValue_value] at hval1 hval2
    rw [(setValue_dots b i j v i2 j2).1, setValue_value, setValue_value]
    by_cases hc1 : i2 = i ∧ j2 = j
    · by_cases hc2 : i2 - 1 = i ∧ j2 = j
      · exact absurd (hc2.1.trans hc1.1.symm) (fin9_sub_one_ne i2)
      · rw [if_pos hc1] at hval1 ⊢
        rw [if_neg hc2] at hval2 ⊢
        obtain ⟨hi2, hj2⟩ := hc1
        rw [hi2, hj2] at hdot hval2 ⊢
        rw [hi2] at hbound
        exact hBp.2.2.2.1 hdot hbound hval2
    · by_cases hc2 : i2 - 1 = i ∧ j2 = j
      · rw [if_neg hc1] at hval1 ⊢
        rw [if_pos hc2] at hval2 ⊢
        obtain ⟨hieq, hj2⟩ := hc2
        rw [hj2] at hdot hval1 ⊢
        have hddu : (b i2 j).up = (b i j).down := by
          rw [hsym.2.1 i2 j hbound, hieq]
        have hibnd : i.val < 8 := by
          rw [← hieq, fin9_sub_val i2 hbound]
          have := i2.isLt
          omega
        have hiadd : i + 1 = i2 := fin9_sub_then_add i2 i hieq
        have hdown : (b i j).down ≠ 0 := by rw [← hddu]; exact hdot
        have hres := hBp.2.1 hdown hibnd (by rw [hiadd]; exact hval1)
        rw [hiadd] at hres
        rw [hddu]
        exact dotOK_symm hres
      · rw [if_neg hc1] at hval1 ⊢
        rw [if_neg hc2] at hval2 ⊢
        exact hAu i2 j2 hdot hbound hval1 hval2
  · intro i2 j2 hdot hbound hval1 hval2
    rw [(setValue_dots b i j v i2 j2).2.2.1] at hdot
    rw [setValue_value] at hval1 hval2
    rw [(setValue_dots b i j v i2 j2).2.2.1, setValue_value, setValue_value]
    by_cases hc1 : i2 = i ∧ j2 = j
    · by_cases hc2 : i2 = i ∧ j2 - 1 = j
      · exact absurd (hc2.2.trans hc1.2.symm) (fin9_sub_one_ne j2)
      · rw [if_pos hc1] at hval1 ⊢
        rw [if_neg hc2] at hval2 ⊢
        obtain ⟨hi2, hj2⟩ := hc1
        rw [hi2, hj2] at hdot hval2 ⊢
        rw [hj2] at hbound
        exact hBp.2.2.2.2 hdot hbound hval2
    · by_cases hc2 : i2 = i ∧ j2 - 1 = j
      · rw [if_neg hc1] at hval1 ⊢
        rw [if_pos hc2] at hval2 ⊢
        obtain ⟨hi2, hjeq⟩ := hc2
        rw [hi2] at hdot hval1 ⊢
        have hddu : (b i j2).left = (b i j).right := by
          rw [hsym.2.2.2 i j2 hbound, hjeq]
        have hjbnd : j.val < 8 := by
          rw [← hjeq, fin9_sub_val j2 hbound]
          have := j2.isLt
          omega
        have hjadd : j + 1 = j2 := fin9_sub_then_add j2 j hjeq
        have hright : (b i j).right ≠ 0 := by rw [← hddu]; exact hdot
        have hres := hBp.2.2.1 hright hjbnd (by rw [hjadd]; exact hval1)
        rw [hjadd] at hres
        rw [hddu]
        exact dotOK_symm hres
      · rw [if_neg hc1] at hval1 ⊢
        rw [if_neg hc2] at hval2 ⊢
        exact hAl i2 j2 hdot hbound hval1 hval2


theorem symmetricDots_congr {b b2 : Board} (h : ∀ r c, sameDots (b2 r c) (b r c))
    (hs : symmetricDots b) : symmetricDots b2 := by
  obtain ⟨h1, h2, h3, h4⟩ := hs
  refine ⟨?_, ?_, ?_, ?_⟩
  · intro i j hb
    rw [(h i j).2.1, (h (i + 1) j).1]
    exact h1 i j hb
  · intro i j hb
    rw [(h i j).1, (h (i - 1) j).2.1]
    exact h2 i j hb
  · intro i j hb
    rw [(h i j).2.2.2, (h i (j + 1)).2.2.1]
    exact h3 i j hb
  · intro i j hb
    rw [(h i j).2.2.1, (h i (j - 1)).2.2.2]
    exact h4 i j hb

theorem InvA_congr {b b2 : Board} (h : ∀ r c, sameShape (b2 r c) (b r c))
    (hA : InvA b) : InvA b2 := by
  obtain ⟨h1, h2, h3, h4, h5⟩ := hA
  refine ⟨?_, ?_, ?_, ?_, ?_⟩
  · intro p q hpq hp hq
    rw [(h p.1 p.2).1] at hp ⊢
    rw [(h q.1 q.2).1] at hq ⊢
    exact h1 p q hpq hp hq
  · intro i j hd hb hv1 hv2
    rw [(h i j).2.2.1] at hd ⊢
    rw [(h i j).1] at hv1 ⊢
    rw [(h (i + 1) j).1] at hv2 ⊢
    exact h2 i j hd hb hv1 hv2
  · intro i j hd hb hv1 hv2
    rw [(h i j).2.2.2.2] at hd ⊢
    rw [(h i j).1] at hv1 ⊢
    rw [(h i (j + 1)).1] at hv2 ⊢
    exact h3 i j hd hb hv1 hv2
  · intro i j hd hb hv1 hv2
    rw [(h i j).2.1] at hd ⊢
    rw [(h i j).1] at hv1 ⊢
    rw [(h (i - 1) j).1] at hv2 ⊢
    exact h4 i j hd hb hv1 hv2
  · intro i j hd hb hv1 hv2
    rw [(h i j).2.2.2.1] at hd ⊢
    rw [(h i j).1] at hv1 ⊢
    rw [(h i (j - 1)).1] at hv2 ⊢
    exact h5 i j hd hb hv1 hv2

theorem completeOK_of_complete (b : Board) (hc : assignment_complete b = true)
    (hA : InvA b) : completeOK b := by
  have hall : ∀ r c : Idx, (b r c).value ≠ 0 := by
    intro r c
    have h := List.all_eq_true.mp hc (r, c) (mem_allPositions (r, c))
    exact (assigned_true_iff _).mp h
  obtain ⟨h1, h2, h3, h4, h5⟩ := hA
  exact ⟨fun p q hpq => h1 p q hpq (hall _ _) (hall _ _),
    fun i j hd hb => h2 i j hd hb (hall _ _) (hall _ _),
    fun i j hd hb => h3 i j hd hb (hall _ _) (hall _ _),
    fun i j hd hb => h4 i j hd hb (hall _ _) (hall _ _),
    fun i j hd hb => h5 i j hd hb (hall _ _) (hall _ _)⟩

theorem InvB_of_all_assigned (b : Board) (h : ∀ p : Pos, (b p.1 p.2).value ≠ 0) :
    InvB b := by
  intro i j h0
  exact absurd h0 (h (i, j))

theorem step_preserves (b : Board) (i j : Idx) (v : Nat)
    (hsym : symmetricDots b) (hA : InvA b) (hB : InvB b)
    (hun : (b i j).value = 0) (hv : 1 ≤ v) (hdom : domainHas (b i j) v)
    (hflag : (forward_check (setValue b i j v) i j).1 = true) :
    symmetricDots ((forward_check (setValue b i j v) i j).2.2) ∧
    InvA ((forward_check (setValue b i j v) i j).2.2) ∧
    InvB ((forward_check (setValue b i j v) i j).2.2) := by
  have hspec := forward_check_spec (setValue b i j v) i j
  have hT := forward_check_true (setValue b i j v) i j hflag
  set b1 := setValue b i j v with hb1
  set b2 := (forward_check b1 i j).2.2 with hb2
  have hsh : ∀ r c, sameShape (b2 r c) (b1 r c) := hspec.2.1
  have hval2 : ∀ r c, (b2 r c).value = (b1 r c).value := fun r c => (hsh r c).1
  have hdots1 : ∀ r c, sameDots (b1 r c) (b r c) := by
    rw [hb1]
    exact setValue_dots b i j v
  have hdots2 : ∀ r c, sameDots (b2 r c) (b r c) := fun r c =>
    sameDots_trans (sameShape_dots (hsh r c)) (hdots1 r c)
  have hval1 : ∀ r c, (b1 r c).value = if r = i ∧ c = j then v else (b r c).value := by
    rw [hb1]
    exact setValue_value b i j v
  have hA1 : InvA b1 := by
    rw [hb1]
    exact InvA_after_assign b i j v hsym hA hB hun hv hdom
  refine ⟨symmetricDots_congr hdots2 hsym, InvA_congr hsh hA1, ?_⟩
  intro r c hrc0 d hd hdm
  have hrc1 : (b1 r c).value = 0 := by
    rw [← hval2 r c]
    exact hrc0
  have hrcne : ¬(r = i ∧ c = j) := by
    intro hx
    rw [hval1 r c, if_pos hx] at hrc1
    omega
  have hrcb : (b r c).value = 0 := by
    rw [hval1 r c, if_neg hrcne] at hrc1
    exact hrc1
  have hdm1 : domainHas (b1 r c) d := hT.1 r c d hdm
  have hdmb : domainHas (b r c) d := by
    have heq : b1 r c = b r c := by
      rw [hb1]
      exact setValue_get_ne b i j v r c hrcne
    rw [← heq]
    exact hdm1
  have hIB := hB r c hrcb d hd hdmb
  have hvpivot : (b1 i j).value = v := by
    rw [hval1 i j, if_pos ⟨rfl, rfl⟩]
  refine ⟨?_, ?_, ?_, ?_, ?_⟩
  · intro q hq hqv
    by_cases hqij : q.1 = i ∧ q.2 = j
    · have hqpair : q = (i, j) := pos_eq_pair hqij.1 hqij.2
      have hmem : (r, c) ∈ posNeighbors i j :=
        mem_posNeighbors.mpr (rcb_symm (hqpair ▸ hq))
      have hna : (b1 r c).assigned = false := (assigned_false_iff _).mpr hrc1
      have hpr := hT.2.1 (r, c) hmem hna
      rw [hvpivot] at hpr
      have hqe : (b2 q.1 q.2).value = v := by
        rw [hval2, hval1, if_pos hqij]
      rw [hqe]
      intro hdv
      exact hpr (hdv ▸ hdm)
    · have hqe : (b2 q.1 q.2).value = (b q.1 q.2).value := by
        rw [hval2, hval1, if_neg hqij]
      rw [hqe] at hqv ⊢
      exact hIB.1 q hq hqv
  · intro hdz hrb hnv
    have hdown2 : (b2 r c).down = (b r c).down := (hdots2 r c).2.1
    rw [hdown2] at hdz ⊢
    by_cases hpij : (r + 1 : Idx) = i ∧ c = j
    · obtain ⟨hri, hcj⟩ := hpij
      have hvtar : (b2 (r + 1) c).value = v := by
        rw [hval2, hval1, if_pos ⟨hri, hcj⟩]
      rw [hvtar]
      have hipos : 0 < i.val := by
        rw [← hri, fin9_add_val r hrb]
        omega
      have hisub : i - 1 = r := fin9_add_then_sub r i hri
      have hud : (b i j).up = (b r c).down := by
        rw [hsym.2.1 i j hipos, hisub, hcj]
      have hup1 : (b1 i j).up = (b i j).up := (hdots1 i j).1
      have hz : (b1 i j).up ≠ 0 := by
        rw [hup1, hud]
        exact hdz
      have hna : (b1 (i - 1) j).assigned = false := by
        rw [hisub, ← hcj]
        exact (assigned_false_iff _).mpr hrc1
      have hdm2 : domainHas (b2 (i - 1) j) d := by
        rw [hisub, ← hcj]
        exact hdm
      have hrem := hT.2.2.1 hz hna d hd hdm2
      rw [hup1, hvpivot] at hrem
      have hk := dot_remains_dotOK (b i j).up v d hv hrem
      rw [hud] at hk
      exact hk
    · have hvtar : (b2 (r + 1) c).value = (b (r + 1) c).value := by
        rw [hval2, hval1, if_neg hpij]
      rw [hvtar] at hnv ⊢
      exact hIB.2.1 hdz hrb hnv
  · intro hdz hcb hnv
    have hright2 : (b2 r c).right = (b r c).right := (hdots2 r c).2.2.2
    rw [hright2] at hdz ⊢
    by_cases hpij : r = i ∧ (c + 1 : Idx) = j
    · obtain ⟨hri, hcj⟩ := hpij
      have hvtar : (b2 r (c + 1)).value = v := by
        rw [hval2, hval1, if_pos ⟨hri, hcj⟩]
      rw [hvtar]
      have hjpos : 0 < j.val := by
        rw [← hcj, fin9_add_val c hcb]
        omega
      have hjsub : j - 1 = c := fin9_add_then_sub c j hcj
      have hud : (b i j).left = (b r c).right := by
        rw [hsym.2.2.2 i j hjpos, hjsub, hri]
      have hleft1 : (b1 i j).left = (b i j).left := (hdots1 i j).2.2.1
      have hz : (b1 i j).left ≠ 0 := by
        rw [hleft1, hud]
        exact hdz
      have hna : (b1 i (j - 1)).assigned = false := by
        rw [hjsub, ← hri]
        exact (assigned_false_iff _).mpr hrc1
      have hdm2 : domainHas (b2 i (j - 1)) d := by
        rw [hjsub, ← hri]
        exact hdm
      have hrem := hT.2.2.2.2.1 hz hna d hd hdm2
      rw [hleft1, hvpivot] at hrem
      have hk := dot_remains_dotOK (b i j).left v d hv hrem
      rw [hud] at hk
      exact hk
    · have hvtar : (b2 r (c + 1)).value = (b r (c + 1)).value := by
        rw [hval2, hval1, if_neg hpij]
      rw [hvtar] at hnv ⊢
      exact hIB.2.2.1 hdz hcb hnv
  · intro hdz hrb hnv
    have hup2 : (b2 r c).up = (b r c).up := (hdots2 r c).1
    rw [hup2] at hdz ⊢
    by_cases hpij : (r - 1 : Idx) = i ∧ c = j
    · obtain ⟨hri, hcj⟩ := hpij
      have hvtar : (b2 (r - 1) c).value = v := by
        rw [hval2, hval1, if_pos ⟨hri, hcj⟩]
      rw [hvtar]
      have hibnd : i.val < 8 := by
        rw [← hri, fin9_sub_val r hrb]
        have h9 := r.isLt
        omega
      have hiadd : i + 1 = r := fin9_sub_then_add r i hri
      have hud : (b i j).down = (b r c).up := by
        rw [hsym.1 i j hibnd, hiadd, hcj]
      have hdown1 : (b1 i j).down = (b i j).down := (hdots1 i j).2.1
      have hz : (b1 i j).down ≠ 0 := by
        rw [hdown1, hud]
        exact hdz
      have hna : (b1 (i + 1) j).assigned = false := by
        rw [hiadd, ← hcj]
        exact (assigned_false_iff _).mpr hrc1
      have hdm2 : domainHas (b2 (i + 1) j) d := by
        rw [hiadd, ← hcj]
        exact hdm
      have hrem := hT.2.2.2.1 hz hna d hd hdm2
      rw [hdown1, hvpivot] at hrem
      have hk := dot_remains_dotOK (b i j).down v d hv hrem
      rw [hud] at hk
      exact hk
    · have hvtar : (b2 (r - 1) c).value = (b (r - 1) c).value := by
        rw [hval2, hval1, if_neg hpij]
      rw [hvtar] at hnv ⊢
      exact hIB.2.2.2.1 hdz hrb hnv
  · intro hdz hcb hnv
    have hleft2 : (b2 r c).left = (b r c).left := (hdots2 r c).2.2.1
    rw [hleft2] at hdz ⊢
    by_cases hpij : r = i ∧ (c - 1 : Idx) = j
    · obtain ⟨hri, hcj⟩ := hpij
      have hvtar : (b2 r (c - 1)).value = v := by
        rw [hval2, hval1, if_pos ⟨hri, hcj⟩]
      rw [hvtar]
      have hjbnd : j.val < 8 := by
        rw [← hcj, fin9_sub_val c hcb]
        have h9 := c.isLt
        omega
      have hjadd : j + 1 = c := fin9_sub_then_add c j hcj
      have hud : (b i j).right = (b r c).left := by
        rw [hsym.2.2.1 i j hjbnd, hjadd, hri]
      have hright1 : (b1 i j).right = (b i j).right := (hdots1 i j).2.2.2
      have hz : (b1 i j).right ≠ 0 := by
        rw [hright1, hud]
        exact hdz
      have hna : (b1 i (j + 1)).assigned = false := by
        rw [hjadd, ← hri]
        exact (assigned_false_iff _).mpr hrc1
      have hdm2 : domainHas (b2 i (j + 1)) d := by
        rw [hjadd, ← hri]
        exact hdm
      have hrem := hT.2.2.2.2.2 hz hna d hd hdm2
      rw [hright1, hvpivot] at hrem
      have hk := dot_remains_dotOK (b i j).right v d hv hrem
      rw [hud] at hk
      exact hk
    · have hvtar : (b2 r (c - 1)).value = (b r (c - 1)).value := by
        rw [hval2, hval1, if_neg hpij]
      rw [hvtar] at hnv ⊢
      exact hIB.2.2.2.2 hdz hcb hnv

theorem tryVals_sound (fuel : Nat)
    (ihbt : ∀ b2 : Board, symmetricDots b2 → InvA b2 → InvB b2 →
      ∀ bs, backtrack fuel b2 = .found bs →
        assignment_complete bs = true ∧ completeOK bs) :
    ∀ (vals : List Nat) (b : Board) (i j : Idx), (∀ w ∈ vals, 1 ≤ w) →
      symmetricDots b → InvA b → InvB b → (b i j).value = 0 →
      ∀ bs, tryVals (backtrack fuel) b i j vals = .found bs →
        assignment_complete bs = true ∧ completeOK bs := by
  intro vals
  induction vals with
  | nil =>
    intro b i j _ _ _ _ _ bs h
    exact BtResult.noConfusion h
  | cons v rest ih =>
    intro b i j hvals hsym hA hB hun bs h
    rw [tryVals_cons] at h
    by_cases hg : (b i j).domain.getD (v - 1) 0 = 0
    · rw [if_pos hg] at h
      exact ih b i j (fun w hw => hvals w (List.mem_cons_of_mem v hw)) hsym hA hB hun bs h
    · rw [if_neg hg] at h
      dsimp only at h
      rcases hfc : forward_check (setValue b i j v) i j with ⟨consistent, original, b2⟩
      rw [hfc] at h
      dsimp only at h
      have hv1 : 1 ≤ v := hvals v (List.mem_cons_self v rest)
      rcases hres : (if consistent = true then backtrack fuel b2 else BtResult.failed b2) with
        bs2 | b3
      · rw [hres] at h
        dsimp only at h
        cases h
        cases consistent
        · rw [if_neg (by simp)] at hres
          exact BtResult.noConfusion hres
        · rw [if_pos rfl] at hres
          have hflag : (forward_check (setValue b i j v) i j).1 = true := by rw [hfc]
          have hstep := step_preserves b i j v hsym hA hB hun hv1 hg hflag
          rw [hfc] at hstep
          dsimp only at hstep
          exact ihbt b2 hstep.1 hstep.2.1 hstep.2.2 bs hres
      · rw [hres] at h
        dsimp only at h
        have hb3 : b3 = b2 := by
          cases consistent
          · rw [if_neg (by simp)] at hres
            exact (BtResult.failed.injEq _ _ ▸ hres).symm
          · rw [if_pos rfl] at hres
            exact backtrack_failed fuel b2 b3 hres
        have hrw : setValue (remove_inferences b3 original) i j 0 = b := by
          rw [hb3]
          have horig : original = (forward_check (setValue b i j v) i j).2.1 := by rw [hfc]
          have hb2eq : b2 = (forward_check (setValue b i j v) i j).2.2 := by rw [hfc]
          rw [horig, hb2eq]
          exact assign_fc_undo b i j v hun
        rw [hrw] at h
        exact ih b i j (fun w hw => hvals w (List.mem_cons_of_mem v hw)) hsym hA hB hun bs h

theorem backtrack_sound : ∀ (fuel : Nat) (b : Board),
    symmetricDots b → InvA b → InvB b →
    ∀ bs, backtrack fuel b = .found bs →
      assignment_complete bs = true ∧ completeOK bs := by
  intro fuel
  induction fuel with
  | zero =>
    intro b _ _ _ bs h
    exact BtResult.noConfusion h
  | succ n ih =>
    intro b hsym hA hB bs h
    unfold backtrack at h
    split at h
    · rename_i hac
      cases h
      exact ⟨hac, completeOK_of_complete b hac hA⟩
    · rcases hsel : select_variable b with _ | ⟨i, j⟩
      · rw [hsel] at h
        exact BtResult.noConfusion h
      · rw [hsel] at h
        dsimp only at h
        refine tryVals_sound n ih _ b i j ?_ hsym hA hB
          (select_variable_value_zero hsel) bs h
        intro w hw
        simp only [List.mem_map, List.mem_range] at hw
        obtain ⟨k, _, hk⟩ := hw
        omega

/-- C1: whenever `backtracking_search` returns a board, that board is fully
assigned and satisfies all row, column, box and dot constraints — provided the
input board has symmetric dot metadata, its assigned cells already satisfy
every pairwise constraint, and every unassigned cell's domain only contains
values compatible with its assigned constrainers. (The claim's unconditional
form is refuted by `C1_counterexample_invalid_clues_returned`.) -/
theorem C1_search_result_satisfies_constraints (b : Board)
    (hsym : symmetricDots b) (hA : InvA b) (hB : InvB b) :
    ∀ bs, backtracking_search b = some bs →
      assignment_complete bs = true ∧ completeOK bs := by
  intro bs h
  unfold backtracking_search at h
  rcases hbt : backtrack 82 b with b1 | b1 <;> rw [hbt] at h
  · cases h
    exact backtrack_sound 82 b hsym hA hB _ hbt
  · exact Option.noConfusion h

/-- Counterexample to C1 as stated: on a board whose 81 given clues are all 5
(massively violating row, column and box uniqueness), `backtracking_search`
returns the board unchanged instead of a constraint-satisfying one, because
the completeness test fires before any consistency check. -/
theorem C1_counterexample_invalid_clues_returned :
    backtracking_search allFivesBoard = some allFivesBoard ∧
    ¬ completeOK allFivesBoard := by
  refine ⟨rfl, ?_⟩
  decide

set_option maxRecDepth 8000 in
/-- Witness for C1 on a concrete valid complete board. -/
theorem C1_witness :
    symmetricDots solvedBoard ∧ InvA solvedBoard ∧ InvB solvedBoard ∧
    (assignment_complete solvedBoard = true ∧ completeOK solvedBoard) := by
  have hB : InvB solvedBoard := InvB_of_all_assigned solvedBoard (by decide)
  have hsym : symmetricDots solvedBoard := by decide
  have hA : InvA solvedBoard := by decide
  exact ⟨hsym, hA, hB,
    C1_search_result_satisfies_constraints solvedBoard hsym hA hB solvedBoard rfl⟩

/-- Witness for C5 on the all-empty board. -/
theorem C5_witness :
    unassignedList emptyBoard ≠ [] ∧
    (∃ p : Pos, select_variable emptyBoard = some p ∧ p ∈ unassignedList emptyBoard ∧
      (∀ q ∈ unassignedList emptyBoard,
        (emptyBoard p.1 p.2).remaining_value_count ≤
          (emptyBoard q.1 q.2).remaining_value_count) ∧
      (∀ q ∈ unassignedList emptyBoard,
        (emptyBoard q.1 q.2).remaining_value_count =
          (emptyBoard p.1 p.2).remaining_value_count →
        unassigned_neighbors_count emptyBoard q.1 q.2 ≤
          unassigned_neighbors_count emptyBoard p.1 p.2) ∧
      (∀ q ∈ unassignedList emptyBoard,
        (emptyBoard q.1 q.2).remaining_value_count =
          (emptyBoard p.1 p.2).remaining_value_count →
        unassigned_neighbors_count emptyBoard q.1 q.2 =
          unassigned_neighbors_count emptyBoard p.1 p.2 →
        rmPos p ≤ rmPos q)) :=
  ⟨by decide, C5_select_variable_heuristic emptyBoard (by decide)⟩

end Kropki
